import Mathlib

/-!
Verification of the Analytical Engine component simulator and its barrel
microprogram assembler (files `barrel_assembler.py` and `component.py`).

The Python sources are embedded shallowly: module-level state is passed
explicitly, fatal `asmerror`/`error` calls (which `exit()` the process) are
modelled with `Except String`, and Python integers are `Nat`/`Int` as
appropriate.  Definition names follow the source where Lean allows it.
-/

namespace AE

/-! ## Barrel assembler (`barrel_assembler.py`) -/

/-- Bottom stud of a pair: the control is engaged (`STUDON = 0`). -/
def STUDON : Nat := 0

/-- Top stud of a pair: the control is not engaged (`STUDOFF = 1`). -/
def STUDOFF : Nat := 1

/-- Stud number of the MOVE1 ON stud.  `initialize_studs` in `component.py`
creates MOVE1, MOVE2, MOVE4, MOVEBACK first, at even stud numbers 0, 2, 4, 6,
and `jumpstud` publishes those numbers as assembler globals. -/
def MOVE1 : Nat := 0

/-- Stud number of the MOVE2 ON stud. -/
def MOVE2 : Nat := 2

/-- Stud number of the MOVE4 ON stud. -/
def MOVE4 : Nat := 4

/-- Stud number of the MOVEBACK ON stud. -/
def MOVEBACK : Nat := 6

/-- First stud number that is not a jump stud (`studnum_moves`); after the
four `jumpstud` calls it equals 8. -/
def studnum_moves : Nat := 8

/-- `jmpgen(n, here)`: generate the stud ON list for a jump of `n` positions
forward or backward.  Exactly mirrors the source: prepend MOVEBACK for
negative `n`, fatal error when the magnitude exceeds 7, then peel off 4, 2, 1.
Note that `n = 0` hits none of the branches and yields the empty list with no
error. -/
def jmpgen (n : Int) (here : Nat) : Except String (List Nat) :=
  let sl : List Nat := []
  let p := if n < 0 then (sl ++ [MOVEBACK + STUDON], -n) else (sl, n)
  let sl := p.1
  let n := p.2
  if n > 7 then Except.error ("Barrel jump greater than 7 at vertical " ++ toString here)
  else
    let p := if n > 3 then (sl ++ [MOVE4 + STUDON], n - 4) else (sl, n)
    let sl := p.1
    let n := p.2
    let p := if n > 1 then (sl ++ [MOVE2 + STUDON], n - 2) else (sl, n)
    let sl := p.1
    let n := p.2
    let sl := if n > 0 then sl ++ [MOVE1 + STUDON] else sl
    Except.ok sl

/-- The information about a symbolic label (`class labelrec`).  `vrefs` is the
set of verticals awaiting the definition (a Python `set`, modelled as a
duplicate-free list in insertion order). -/
structure labelrec where
  name : String
  vrefs : List Nat
  defined : Bool
  vndx : Option Nat
deriving Repr, DecidableEq

/-- Assembler state of one `program` object: the label dictionary (a Python
dict: insertion-ordered with unique keys), the verticals built so far, and the
indices of verticals eligible to cause a ±1 extra jump. -/
structure AsmState where
  labels : List (String × labelrec)
  verticals : List (List Nat)
  skip_verticals : List Nat
deriving Repr, DecidableEq

/-- A fresh `program` (constructor of `class program`). -/
def emptyProgram : AsmState := ⟨[], [], []⟩

/-- Dictionary lookup `self.labels[name]` / `name in self.labels`. -/
def lookupLabel (name : String) (labels : List (String × labelrec)) : Option labelrec :=
  (labels.find? (fun p => p.1 == name)).map (·.2)

/-- Overwrite the record stored under an existing key (mutation of the
`labelrec` object held in the dict). -/
def setLabel (name : String) (lab : labelrec) (labels : List (String × labelrec)) :
    List (String × labelrec) :=
  labels.map (fun p => if p.1 == name then (p.1, lab) else p)

/-- The membership test `here in [*self.labels.values()]` in `program.label`
compares the integer `here` against `labelrec` objects with `==`.  `labelrec`
defines no `__eq__`, so the comparison is always `False` in Python; the
"redundant label" branch is dead code. -/
def pyIntEqLabelrec (_here : Nat) (_lab : labelrec) : Bool := false

/-- The backpatch loop in `program.label`: for every vertical index in
`vrefs`, generate the jump studs for the now-known distance and append them to
that vertical. -/
def patchVrefs (here : Nat) (vrefs : List Nat) (verts : List (List Nat)) :
    Except String (List (List Nat)) :=
  match vrefs with
  | [] => Except.ok verts
  | v :: rest =>
      if h : v < verts.length then
        match jmpgen ((here : Int) - (v : Int)) v with
        | Except.error e => Except.error e
        | Except.ok studs => patchVrefs here rest (verts.set v (verts[v] ++ studs))
      else Except.error "vertical index out of range"

/-- `program.label(name)`: create a label at the current location. -/
def label (name : String) (s : AsmState) : Except String AsmState :=
  let here := s.verticals.length
  match lookupLabel name s.labels with
  | some lab =>
      if lab.defined then Except.error ("duplicate label: " ++ name)
      else
        match patchVrefs here lab.vrefs s.verticals with
        | Except.error e => Except.error e
        | Except.ok verts =>
            let lab' := { lab with vndx := some here, defined := true, vrefs := [] }
            Except.ok { s with verticals := verts, labels := setLabel name lab' s.labels }
  | none =>
      if (s.labels.map Prod.snd).any (fun lab => pyIntEqLabelrec here lab) then
        Except.error ("redundant label: " ++ name)
      else
        Except.ok { s with
          labels := s.labels ++
            [(name, { name := name, vrefs := [], defined := true, vndx := some here })] }

/-- `program.goto(labelname)`: return the jump studs for a backward reference,
or record the current vertical in the label's pending refs for a forward
reference (Python `set.add`, hence the duplicate check). -/
def goto (labelname : String) (s : AsmState) : Except String (List Nat × AsmState) :=
  let here := s.verticals.length
  match lookupLabel labelname s.labels with
  | some lab =>
      if lab.defined then
        match jmpgen ((lab.vndx.getD 0 : Int) - (here : Int)) here with
        | Except.error e => Except.error e
        | Except.ok studs => Except.ok (studs, s)
      else
        let lab' :=
          { lab with vrefs := if here ∈ lab.vrefs then lab.vrefs else lab.vrefs ++ [here] }
        Except.ok ([], { s with labels := setLabel labelname lab' s.labels })
  | none =>
      Except.ok ([],
        { s with labels := s.labels ++
            [(labelname, { name := labelname, vrefs := [here], defined := false, vndx := none })] })

/-- One stud argument as passed to `program.vertical`: a reference to a `Stud`
component, of which the assembler uses the stud number and the skip flag. -/
structure StudArg where
  studnum : Nat
  can_skip : Bool
deriving Repr, DecidableEq

/-- One positional argument of `program.vertical`: a quoted string, or a stud /
set of studs (`if type(arg) != set: arg = {arg}` turns a lone stud into a
singleton set; a set is modelled as a list in iteration order). -/
inductive Arg where
  | str (s : String)
  | studs (l : List StudArg)
deriving Repr, DecidableEq

/-- The stud-argument branch of the loop in `program.vertical`: append each
stud's number unless already present, and register the vertical in
`skip_verticals` when a newly added stud can skip.  The accumulator carries
`(studnumlist, skip_verticals)`; `vlen` is `len(self.verticals)`. -/
def addStuds (studs : List StudArg) (vlen : Nat) (acc : List Nat × List Nat) :
    List Nat × List Nat :=
  studs.foldl
    (fun acc st =>
      if st.studnum ∈ acc.1 then acc
      else (acc.1 ++ [st.studnum], if st.can_skip then acc.2 ++ [vlen] else acc.2))
    acc

/-- The argument loop of `program.vertical`: a string is a label definition
while `studnumlist` is still empty and a jump target afterwards; stud
arguments accumulate into `studnumlist`. -/
def verticalArgs : List Arg → List Nat → AsmState → Except String (List Nat × AsmState)
  | [], snl, s => Except.ok (snl, s)
  | Arg.str a :: rest, snl, s =>
      if snl.length > 0 then
        match goto a s with
        | Except.error e => Except.error e
        | Except.ok p => verticalArgs rest (snl ++ p.1) p.2
      else
        match label a s with
        | Except.error e => Except.error e
        | Except.ok s' => verticalArgs rest snl s'
  | Arg.studs l :: rest, snl, s =>
      let p := addStuds l s.verticals.length (snl, s.skip_verticals)
      verticalArgs rest p.1 { s with skip_verticals := p.2 }

/-- `program.vertical(*argv)`: process the arguments, then append the
collected stud-number list as a new vertical. -/
def vertical (args : List Arg) (s : AsmState) : Except String AsmState :=
  match verticalArgs args [] s with
  | Except.error e => Except.error e
  | Except.ok p => Except.ok { p.2 with verticals := p.2.verticals ++ [p.1] }

/-- A barrel program as a list of `vertical(...)` calls. -/
def buildProgram : List (List Arg) → AsmState → Except String AsmState
  | [], s => Except.ok s
  | i :: rest, s =>
      match vertical i s with
      | Except.error e => Except.error e
      | Except.ok s' => buildProgram rest s'

/-- Python `sorted` on a list of stud numbers.  Python's sort is a stable
ascending sort; on a list of natural numbers every correct ascending sort
produces the same output (equal keys are indistinguishable), so we use
Mathlib's structurally recursive insertion sort, which the kernel can
evaluate. -/
def pySorted (l : List Nat) : List Nat := l.insertionSort (· ≤ ·)

/-- First half of the per-vertical post-processing in `program.end_program`:
if no move studs are specified in the vertical, add "jump to next vertical"
(MOVE1 ON). -/
def addDefaultJump (vert : List Nat) : List Nat :=
  if vert.all (fun stud => decide (studnum_moves ≤ stud)) then vert ++ [MOVE1 + STUDON]
  else vert

/-- The OFF studs appended by `program.end_program` for the pairs neither of
whose studs is present in `vert`: the loop runs `studnum` over
`range(0, len(studnames), 2)`.  `nstuds` is `len(self.studnames)`, twice the
number of stud pairs. -/
def offsList (nstuds : Nat) (vert : List Nat) : List Nat :=
  (((List.range (nstuds / 2)).map (fun k => 2 * k)).filter
      (fun studnum => decide (¬ studnum ∈ vert) && decide (¬ (studnum + 1) ∈ vert))).map
    (fun studnum => studnum + STUDOFF)

/-- Second half of the per-vertical post-processing: add the OFF stud of every
pair neither of whose studs is present.  (The Python loop appends to the list
it is testing, but it only ever appends odd numbers `studnum+1` for strictly
increasing `studnum`, so the appended studs never affect a later membership
test and checking against the initial list is equivalent.) -/
def addOffs (nstuds : Nat) (vert : List Nat) : List Nat :=
  vert ++ offsList nstuds vert

/-- The whole per-vertical post-processing of `program.end_program`: default
jump, OFF studs, then sort by stud number. -/
def endVertical (nstuds : Nat) (vert : List Nat) : List Nat :=
  pySorted (addOffs nstuds (addDefaultJump vert))

/-- `program.end_program()`: fail on a label that still has pending forward
references, then post-process every vertical. -/
def end_program (nstuds : Nat) (s : AsmState) : Except String AsmState :=
  match s.labels.find? (fun p => decide (0 < p.2.vrefs.length)) with
  | some p => Except.error ("undefined label " ++ p.1)
  | none => Except.ok { s with verticals := s.verticals.map (endVertical nstuds) }

/-- The jump-distance reconstruction of `program.disassemble` (lines
`distance = 1*(vert[0]==MOVE1)+2*(vert[1]==MOVE2)+4*(vert[2]==MOVE4)` and
`if vert[3] == MOVEBACK: distance = -distance`).  It is only applied to
post-processed verticals, which always have at least four entries; the
defaults supplied to `getD` are never used there. -/
def disasmDistance (vert : List Nat) : Int :=
  let distance : Int :=
    (if vert.getD 0 (MOVE1 + STUDOFF) = MOVE1 then 1 else 0)
    + (if vert.getD 1 (MOVE2 + STUDOFF) = MOVE2 then 2 else 0)
    + (if vert.getD 2 (MOVE4 + STUDOFF) = MOVE4 then 4 else 0)
  if vert.getD 3 (MOVEBACK + STUDOFF) = MOVEBACK then -distance else distance

/-- The representative of stud pair `k` in a completed vertical: the ON stud
`2*k` when the pre-completion vertical engages the control, the OFF stud
`2*k+1` otherwise. -/
def pairRep (vert : List Nat) (k : Nat) : Nat := if 2 * k ∈ vert then 2 * k else 2 * k + 1

/-- Assemble a whole program: the sequence of `vertical(...)` calls followed
by `end_program()`. -/
def assemble (nstuds : Nat) (instrs : List (List Arg)) : Except String AsmState :=
  match buildProgram instrs emptyProgram with
  | Except.error e => Except.error e
  | Except.ok s => end_program nstuds s

/-! ## Component simulator (`component.py`) -/

/-- Number of digits in each number of a column, not including the sign. -/
def NDIGITS : Nat := 25

/-- Direction of gear motion (`CCW = True`). -/
def CCW : Bool := true

/-- Direction of gear motion (`CW = False`). -/
def CW : Bool := false

/-- `class Counter`: an abstract component that can count from 0 to NDIGITS.
Python integers can go negative before the wrap test, so `value` is an `Int`. -/
structure Counter where
  value : Int
  running_up : Bool
  driven : Bool
deriving Repr, DecidableEq

/-- `Counter.clear`. -/
def Counter.clear (c : Counter) : Counter := { c with value := 0, running_up := false }

/-- `Counter.advance(direction)`: decrement on CCW with wrap to NDIGITS,
increment on CW with wrap to 0; each wrap latches `running_up`. -/
def Counter.advance (c : Counter) (direction : Bool) : Counter :=
  let c := { c with driven := false }
  if direction = CCW then
    let v := c.value - 1
    if v < 0 then { c with value := (NDIGITS : Int), running_up := true }
    else { c with value := v }
  else
    let v := c.value + 1
    if v > (NDIGITS : Int) then { c with value := 0, running_up := true }
    else { c with value := v }

/-- State of one `DigitWheel` together with the direction of its dedicated
gear (`self.gear.direction`).  The digit stack back-pointer and mesh lists
are other components' state; `advance` also flags the owning stack and
queues meshed gears, which does not touch the fields modelled here. -/
structure DigitWheel where
  whposition : Nat
  nextwhposition : Option Nat
  driven : Bool
  gear_direction : Bool
deriving Repr, DecidableEq

/-- The effect of `add_to_advance_list(self, direction)` on the wheel itself:
a non-axle component that is already driven is a fatal error; otherwise it is
marked driven (and appended to the global advance list, which is not part of
the wheel-local state). -/
def DigitWheel.add_to_advance (w : DigitWheel) (_direction : Bool) : Except String DigitWheel :=
  if w.driven then Except.error "is already driven"
  else Except.ok { w with driven := true }

/-- `DigitWheel.meshed_rotate(direction)`: set the gear direction, fail if a
next position is already pending, then set `nextwhposition` one step in the
given direction (the source writes `whposition-1`/`+1` fixed up to 9/0 at the
boundaries) and enqueue the wheel. -/
def DigitWheel.meshed_rotate (w : DigitWheel) (direction : Bool) : Except String DigitWheel :=
  let w := { w with gear_direction := direction }
  match w.nextwhposition with
  | some _ => Except.error "already has position set"
  | none =>
      let w :=
        if direction = CCW then
          { w with nextwhposition := some (if w.whposition = 0 then 9 else w.whposition - 1) }
        else
          { w with nextwhposition := some (if w.whposition + 1 > 9 then 0 else w.whposition + 1) }
      w.add_to_advance direction

/-- `DigitWheel.queue_movewheel(position)`: fatal error unless `position` is
one step away from `whposition` modulo 10 (Python's `(position-1)%10` on
a nonnegative int equals `(position+9)%10`); then record the pending position
and enqueue the wheel. -/
def DigitWheel.queue_movewheel (w : DigitWheel) (position : Nat) : Except String DigitWheel :=
  if (position + 1) % 10 ≠ w.whposition ∧ (position + 9) % 10 ≠ w.whposition then
    Except.error "is attempting to move more than one position"
  else
    let w := { w with nextwhposition := some position }
    w.add_to_advance CCW

/-- `DigitWheel.movewheel(direction)`: schedule an unconditional one-step move
for a carry or borrow; `(whposition + (-1 if CCW else +1)) % 10` is
`(whposition + 9) % 10` resp. `(whposition + 1) % 10` on naturals. -/
def DigitWheel.movewheel (w : DigitWheel) (direction : Bool) : Except String DigitWheel :=
  let w := { w with gear_direction := direction }
  w.queue_movewheel ((if direction = CCW then w.whposition + 9 else w.whposition + 1) % 10)

/-- `DigitWheel.advance(direction)`: commit the queued wheel position (fatal
error if none is queued).  Flagging `digitstack.changed` and rotating meshed
gears touch other components only. -/
def DigitWheel.advance (w : DigitWheel) (direction : Bool) : Except String DigitWheel :=
  let w := { w with gear_direction := direction }
  match w.nextwhposition with
  | none => Except.error "has no next position set"
  | some p => Except.ok { w with whposition := p, nextwhposition := none }

/-- A pending wheel position, when present, is one step away from the current
position modulo 10.  Both `meshed_rotate` and `queue_movewheel` establish
this. -/
def pendingOK (w : DigitWheel) : Bool :=
  match w.nextwhposition with
  | none => true
  | some p => decide ((p + 1) % 10 = w.whposition) || decide ((p + 9) % 10 = w.whposition)

/-- A `DigitWheelCarry`: a digit wheel with a carry warning arm attached.
Only the fields read and written by the anticipating carriage are modelled;
`movewheel` below mirrors the inherited `DigitWheel.movewheel`. -/
structure CarryWheel where
  whposition : Nat
  nextwhposition : Option Nat
  driven : Bool
  gear_direction : Bool
  carry_warned : Bool
deriving Repr, DecidableEq, Inhabited

/-- `movewheel` on a carry wheel (inherited from `DigitWheel`): set the gear
direction, check the one-step guard (trivially true here), record the pending
position, and enqueue (fatal if the wheel is already driven). -/
def CarryWheel.movewheel (w : CarryWheel) (direction : Bool) : Except String CarryWheel :=
  let w := { w with gear_direction := direction }
  let position := (if direction = CCW then w.whposition + 9 else w.whposition + 1) % 10
  if (position + 1) % 10 ≠ w.whposition ∧ (position + 9) % 10 ≠ w.whposition then
    Except.error "is attempting to move more than one position"
  else if w.driven then Except.error "is already driven"
  else Except.ok { w with nextwhposition := some position, driven := true }

/-- `class AxleCarriage`, restricted to the state `do_carriage` reads and
writes: the attached digit stack's wheels (`NDIGITS+1` of them, the last
being the sign wheel), the per-wheel `carry_needed` flags, the `running_up`
flag, and the stack's `doing_carries` flag. -/
structure AxleCarriage where
  wheels : List CarryWheel
  carry_needed : List Bool
  running_up : Bool
  doing_carries : Bool
deriving Repr, DecidableEq

/-- The first half of a `do_carriage` loop iteration with the flag set: at
the top wheel record "running up", otherwise queue a unit move on wheel
`wn+1`. -/
def carryBranch (car : AxleCarriage) (direction : Bool) (wn : Nat) :
    Except String AxleCarriage :=
  if wn = NDIGITS - 1 then Except.ok { car with running_up := true }
  else
    match car.wheels[wn + 1]? with
    | none => Except.error "wheel index out of range"
    | some w1 =>
        match w1.movewheel direction with
        | Except.error e => Except.error e
        | Except.ok w1' => Except.ok { car with wheels := car.wheels.set (wn + 1) w1' }

/-- One iteration `wn` of the loop in `AxleCarriage.do_carriage`: when the
wheel is carry-warned or flagged, run `carryBranch`, then clear both flags and
set `doing_carries`. -/
def carryStep (car : AxleCarriage) (direction : Bool) (wn : Nat) :
    Except String AxleCarriage :=
  match car.wheels[wn]? with
  | none => Except.error "wheel index out of range"
  | some w =>
      if w.carry_warned = true ∨ car.carry_needed.getD wn false = true then
        match carryBranch car direction wn with
        | Except.error e => Except.error e
        | Except.ok car1 =>
            -- the source clears `wheels[wn].carry_warned` at this point;
            -- neither branch of `carryBranch` modifies the wheel at index
            -- `wn`, so clearing the flag on the wheel read at the start of
            -- the iteration is equivalent
            Except.ok { car1 with
              wheels := car1.wheels.set wn { w with carry_warned := false }
              carry_needed := car1.carry_needed.set wn false
              doing_carries := true }
      else Except.ok car

/-- The loop `for wn in range(NDIGITS)` of `do_carriage`, unrolled with an
explicit remaining count. -/
def carrLoop (direction : Bool) : Nat → Nat → AxleCarriage → Except String AxleCarriage
  | _, 0, car => Except.ok car
  | wn, rem + 1, car =>
      match carryStep car direction wn with
      | Except.error e => Except.error e
      | Except.ok car1 => carrLoop direction (wn + 1) rem car1

/-- `AxleCarriage.do_carriage(direction)`: execute the flagged carries. -/
def AxleCarriage.do_carriage (car : AxleCarriage) (direction : Bool) :
    Except String AxleCarriage :=
  carrLoop direction 0 NDIGITS car

/-- The carry-warned flag of wheel `j` of the carriage's digit stack. -/
def warned (car : AxleCarriage) (j : Nat) : Bool := (car.wheels.getD j default).carry_warned

/-- The `carry_needed` flag for wheel `j`. -/
def needed (car : AxleCarriage) (j : Nat) : Bool := car.carry_needed.getD j false

/-! ### Barrel runtime -/

/-- The state of one `Barrel` (`class Barrel`) together with the two
module-level variables its methods write: the cycle counter incremented by
`reset` and the `stopped` flag set by the STOP stud. -/
structure BarrelWorld where
  driven : Bool
  phase : Nat
  barrel_position : Nat
  move_distance : Int
  doskip : Bool
  jump_backwards : Bool
  num_phases : Nat
  cycle : Nat
  stopped : Bool
deriving Repr, DecidableEq

/-- The external conditions read by the phase-18 skip studs: the `running_up`
flags of the two carriages F1C and F2C and of the counter CTR. -/
structure RunupEnv where
  f1 : Bool
  f2 : Bool
  ctr : Bool
deriving Repr, DecidableEq

/-- `chkmove(barrel, actionphase, distance)`: the semantics of the MOVE4,
MOVE2 and MOVE1 studs. -/
def chkmove (actionphase : Nat) (distance : Int) (b : BarrelWorld) : BarrelWorld :=
  if b.phase = actionphase then
    { b with
      move_distance := b.move_distance + (if b.jump_backwards then -distance else distance) }
  else b

/-- `setbackwards(barrel)`: the semantics of the MOVEBACK stud. -/
def setbackwards (b : BarrelWorld) : BarrelWorld :=
  if b.phase = 2 then { b with jump_backwards := true } else b

/-- `set_longcycle(barrel)`: the semantics of the CYCLE20 stud. -/
def set_longcycle (b : BarrelWorld) : BarrelWorld :=
  if b.phase = 2 then { b with num_phases := 20 } else b

/-- `chk_runup(barrel, carriage, invert)`: the semantics of the IF_RUNUP /
IF_NORUNUP studs, with the carriage's (or counter's) `running_up` flag
supplied from the environment. -/
def chk_runup (running_up invert : Bool) (b : BarrelWorld) : BarrelWorld :=
  if b.phase = 18 then
    (if xor running_up invert then { b with doskip := true } else b)
  else b

/-- `dostop(barrel)`: the semantics of the STOP stud. -/
def dostop (b : BarrelWorld) : BarrelWorld :=
  if b.phase = 2 then { b with stopped := true } else b

/-- Number of entries in `studlist` / `studnames`: 4 jump studs plus 51 user
studs, each appearing twice (ON and OFF). -/
def numStudEntries : Nat := 110

/-- The barrel-state effect of the action function of each ON stud, by stud
number in the order the studs are created in `component.py`:
MOVE1 = 0, MOVE2 = 2, MOVE4 = 4, MOVEBACK = 6, then the user studs
RAISE_MP1 = 8 … CLEARCTR = 92, the six skip studs IF_RUNUP_F1 = 94,
IF_RUNUP_F2 = 96, IF_NORUNUP_F1 = 98, IF_NORUNUP_F2 = 100,
IF_RUNUP_CTR = 102, IF_NORUNUP_CTR = 104, then CYCLE20 = 106 and STOP = 108.
Every stud not listed below has an action (`lift`, `carry`, `count1`,
`counter_change`, `counter_clear`) that reads and writes only axles, pinion
stacks, carriages, counters and the advance list — never a barrel field, the
cycle counter, or the stopped flag — so its effect on this state is the
identity. -/
def studAction (env : RunupEnv) (studnum : Nat) (b : BarrelWorld) : BarrelWorld :=
  if studnum = 0 then chkmove 12 1 b
  else if studnum = 2 then chkmove 10 2 b
  else if studnum = 4 then chkmove 6 4 b
  else if studnum = 6 then setbackwards b
  else if studnum = 94 then chk_runup env.f1 true b
  else if studnum = 96 then chk_runup env.f2 true b
  else if studnum = 98 then chk_runup env.f1 false b
  else if studnum = 100 then chk_runup env.f2 false b
  else if studnum = 102 then chk_runup env.ctr true b
  else if studnum = 104 then chk_runup env.ctr false b
  else if studnum = 106 then set_longcycle b
  else if studnum = 108 then dostop b
  else b

/-- The stud loop of `Barrel.advance`: for every ON stud (even number) of the
current vertical, execute its action function; an even stud number beyond the
stud table is an index error. -/
def studLoop (env : RunupEnv) : List Nat → BarrelWorld → Except String BarrelWorld
  | [], b => Except.ok b
  | studnum :: rest, b =>
      if studnum % 2 = 0 then
        (if studnum < numStudEntries then studLoop env rest (studAction env studnum b)
         else Except.error "stud number out of range")
      else studLoop env rest b

/-- `Barrel.reset(position)`: count a cycle and reinitialize the per-cycle
barrel fields. -/
def barrelReset (position : Nat) (b : BarrelWorld) : BarrelWorld :=
  { b with
    cycle := b.cycle + 1
    driven := false
    phase := 1
    barrel_position := position
    move_distance := 0
    doskip := false
    jump_backwards := false
    num_phases := 15 }

/-- `Barrel.advance(direction)`: one phase of the 15- or 20-phase cycle.
Phases 3, 4–12, 13 and 14 additionally compute/remove gear meshes and enqueue
driven axles, which touches no field modelled here.  At the end of the cycle
the barrel moves to `(barrel_position + move_distance) % len(verticals)`
(Python `%`, i.e. `Int.emod`) and resets. -/
def barrelAdvance (env : RunupEnv) (verts : List (List Nat)) (b : BarrelWorld) :
    Except String BarrelWorld :=
  let b := { b with driven := false }
  match verts[b.barrel_position]? with
  | none => Except.error "barrel position out of range"
  | some vert =>
      if b.phase > 20 then Except.error "barrel phase > 20"
      else
        match studLoop env vert b with
        | Except.error e => Except.error e
        | Except.ok b =>
            let b :=
              if b.phase = 18 ∧ b.doskip = true then
                { b with
                  move_distance := b.move_distance + (if b.jump_backwards then -1 else 1) }
              else b
            let b := { b with phase := b.phase + 1 }
            if b.phase > b.num_phases then
              Except.ok (barrelReset
                ((((b.barrel_position : Int) + b.move_distance).emod
                  (verts.length : Int)).toNat) b)
            else Except.ok b

/-! ### Assembler well-formedness -/

/-- A user stud number: an ON stud (`even`), not one of the four move studs,
within the stud table. -/
def GoodUser (nstuds x : Nat) : Prop := x % 2 = 0 ∧ studnum_moves ≤ x ∧ x < nstuds

/-- The shape every vertical has before `end_program`: a duplicate-free list
of user ON studs followed by a duplicate-free list of move ON studs (the
output of at most one `jmpgen` call). -/
def VertShape (nstuds : Nat) (vert : List Nat) : Prop :=
  ∃ u m, vert = u ++ m ∧ u.Nodup ∧ (∀ x ∈ u, GoodUser nstuds x)
    ∧ m.Nodup ∧ (∀ x ∈ m, x % 2 = 0 ∧ x < studnum_moves)

/-- The assembler invariant maintained by `vertical`/`label` calls: every
vertical has `VertShape`; label names are unique; no vertical index is
pending in two labels' forward-reference sets; a defined label has no pending
refs; every pending ref denotes an existing vertical that so far contains
only user studs (its jump studs will be appended exactly once, when the label
is defined). -/
def Inv (nstuds : Nat) (s : AsmState) : Prop :=
  (∀ i, i < s.verticals.length → VertShape nstuds (s.verticals.getD i []))
  ∧ (s.labels.map Prod.fst).Nodup
  ∧ (∀ p ∈ s.labels, p.2.vrefs.Nodup)
  ∧ s.labels.Pairwise (fun p q => ∀ v ∈ p.2.vrefs, ¬ v ∈ q.2.vrefs)
  ∧ (∀ p ∈ s.labels, (p.2.defined = true → p.2.vrefs = [])
      ∧ ∀ v ∈ p.2.vrefs, v < s.verticals.length
          ∧ ∀ x ∈ s.verticals.getD v [], GoodUser nstuds x)

/-- A well-formed `vertical(...)` call as described by the claim: an optional
leading label string, stud arguments naming only user studs, and at most one
trailing jump-target string. -/
def WFInstr (nstuds : Nat) (args : List Arg) : Prop :=
  ∃ (lab : Option String) (mids : List (List StudArg)) (jmp : Option String),
    args = (lab.toList.map Arg.str) ++ (mids.map Arg.studs) ++ (jmp.toList.map Arg.str)
    ∧ ∀ l ∈ mids, ∀ st ∈ l, GoodUser nstuds st.studnum

/-! ## The advance scheduler (`component.py` lines 464-500) -/

/-- The species of a simulator component as the scheduler sees it: an
`Axle` may be driven many times within one time unit; a pinion or digit
wheel (`Pinion`, `DigitWheel`, `DigitWheelCarry`, the members of
`all_pinions_and_wheels`) has its `driven` flag force-cleared by the loop at
the end of `timeunit_tick`; a `Barrel` or `Counter` clears its own `driven`
flag at the top of its `advance` method. -/
inductive Kind where
  | axle
  | pinionwheel
  | barrelcounter
deriving Repr, DecidableEq

/-- The scheduler state: the `driven` flag of every component (components
are numbered, `driven` is indexed by component number) and the
`awaiting_advance` list of (component, direction) pairs. -/
structure Sched where
  driven : List Bool
  queue : List (Nat × Bool)
deriving Repr, DecidableEq

/-- `add_to_advance_list(comp, direction)`: a fatal error if a non-Axle
component is already driven, otherwise set its `driven` flag and append it
to `awaiting_advance`.  (The `comp.direction` attribute the Python also
stores travels in the queue pair, which is what `timeunit_tick` uses.) -/
def add_to_advance_list (kinds : List Kind) (c : Nat) (d : Bool) (st : Sched) :
    Except String Sched :=
  if kinds.getD c Kind.axle ≠ Kind.axle ∧ st.driven.getD c false = true then
    Except.error "is already driven"
  else Except.ok { driven := st.driven.set c true, queue := st.queue ++ [(c, d)] }

/-- One `add_to_advance_list` call threaded through an `Except`
accumulator; `comp.advance` performs a sequence of such calls. -/
def addsStep (kinds : List Kind) (acc : Except String Sched) (p : Nat × Bool) :
    Except String Sched :=
  match acc with
  | Except.error e => Except.error e
  | Except.ok s => add_to_advance_list kinds p.1 p.2 s

/-- One call `comp.advance(direction)` as seen by the scheduler: a `Barrel`
or `Counter` clears its own `driven` flag first (`Barrel.advance`,
`Counter.advance`); the advance then makes some sequence of
`add_to_advance_list` calls, abstracted by the oracle `eff` (which
components a given advance drives is decided by the machine state, which
the scheduler does not inspect). -/
def doAdvance (kinds : List Kind) (eff : Nat → Bool → List (Nat × Bool)) (c : Nat)
    (d : Bool) (st : Sched) : Except String Sched :=
  let st1 := if kinds.getD c Kind.axle = Kind.barrelcounter then
      { st with driven := st.driven.set c false } else st
  (eff c d).foldl (addsStep kinds) (Except.ok st1)

/-- The drain loop of `timeunit_tick`: while `awaiting_advance` is
nonempty, pop the entry at a random index — the seeded random stream is the
`choices` list, and `random.randint(0, len-1)` is its next value reduced
into range — then fatal error if the popped component is not driven,
otherwise advance it.  `fuel` bounds the number of iterations so that the
function is total; `Except.ok none` models a call that has not returned
within `fuel` pops. -/
def drainAdv (kinds : List Kind) (eff : Nat → Bool → List (Nat × Bool)) :
    Nat → List Nat → Sched → Except String (Option Sched)
  | 0, _, st => if st.queue = [] then Except.ok (some st) else Except.ok none
  | fuel + 1, choices, st =>
      if st.queue = [] then Except.ok (some st)
      else
        let i := choices.headD 0 % st.queue.length
        let p := st.queue.getD i (0, false)
        let st1 : Sched := { st with queue := st.queue.eraseIdx i }
        if st.driven.getD p.1 false = false then
          Except.error "is on the awaiting_advance list but is not driven"
        else
          match doAdvance kinds eff p.1 p.2 st1 with
          | Except.error e => Except.error e
          | Except.ok st2 => drainAdv kinds eff fuel choices.tail st2

/-- The loop at the end of `timeunit_tick`: every pinion and digit wheel
(`for object in all_pinions_and_wheels: object.driven = False`) has its
`driven` flag reset. -/
def clearPW (kinds : List Kind) (driven : List Bool) : List Bool :=
  (List.range driven.length).map
    (fun c => if kinds.getD c Kind.axle = Kind.pinionwheel then false
      else driven.getD c false)

/-- `timeunit_tick()`: advance the time unit count, drain the
`awaiting_advance` list in a random order, then clear the `driven` flags of
all pinions and wheels. -/
def timeunit_tick (kinds : List Kind) (eff : Nat → Bool → List (Nat × Bool))
    (fuel : Nat) (choices : List Nat) (st : Sched) (timeunit : Nat) :
    Except String (Option (Sched × Nat)) :=
  match drainAdv kinds eff fuel choices st with
  | Except.error e => Except.error e
  | Except.ok none => Except.ok none
  | Except.ok (some st2) =>
      Except.ok (some (⟨clearPW kinds st2.driven, st2.queue⟩, timeunit + 1))

/-- The scheduler invariant maintained between and during time units: a
driven `Barrel` or `Counter` is always on the `awaiting_advance` list (it is
put there by `add_to_advance_list`, and its `advance` clears `driven` when
it is popped). -/
def SchedInv (kinds : List Kind) (st : Sched) : Prop :=
  ∀ c, kinds.getD c Kind.axle = Kind.barrelcounter →
    st.driven.getD c false = true → ∃ d, (c, d) ∈ st.queue

/-! ## Determinism of the multiply driver (`domult`) -/

/-- The machine state as the `domult` driver sees it: the scheduler state,
the global `timeunit` counter, the `stopped` flag the STOP stud sets, and
the digit-stack values.  Every other piece of component state lives behind
the `adv` oracle of `popStep`. -/
structure Mach where
  driven : List Bool
  queue : List (Nat × Bool)
  timeunit : Nat
  stopped : Bool
  digitstacks : List Int
deriving Repr, DecidableEq

/-- One pop of the `timeunit_tick` drain loop: remove the queue entry at
index `i` and run the popped component's `advance`, whose deterministic
state change is the oracle `adv` (the bodies of the `advance` methods
contain no randomness). -/
def popStep (adv : Nat → Bool → Mach → Mach) (i : Nat) (m : Mach) : Mach :=
  let p := m.queue.getD i (0, false)
  adv p.1 p.2 { m with queue := m.queue.eraseIdx i }

/-- The drain loop of `timeunit_tick` as a relation between (random stream,
state) pairs: at every step the popped index is the next value of the
stream reduced into the range of `random.randint(0, len-1)`, and the loop
ends when the list is empty.  The fatal is-not-driven check is omitted: a
failed check calls `error()` and exits, so an aborted run has no final
state to compare.  Fixing the stream (identical seeding) leaves no choice
in the relation. -/
inductive DrainR (adv : Nat → Bool → Mach → Mach) :
    List Nat → Mach → List Nat → Mach → Prop where
  | done (cs : List Nat) (m : Mach) : m.queue = [] → DrainR adv cs m cs m
  | step (cs cs' : List Nat) (m m' : Mach) :
      m.queue ≠ [] →
      DrainR adv cs.tail (popStep adv (cs.headD 0 % m.queue.length) m) cs' m' →
      DrainR adv cs m cs' m'

/-- The end of `timeunit_tick`: clear the `driven` flag of every pinion and
digit wheel. -/
def tickEnd (kinds : List Kind) (m : Mach) : Mach :=
  { m with driven := clearPW kinds m.driven }

/-- The top of each `domult` loop iteration,
`add_to_advance_list(BARMUL, CCW)`: set the barrel's `driven` flag and
append it to the advance list.  (The double-drive error cannot fire: the
barrel is a non-axle whose flag is clear between time units, by C4.) -/
def addBarrel (barrel : Nat) (m : Mach) : Mach :=
  { m with driven := m.driven.set barrel true, queue := m.queue ++ [(barrel, CCW)] }

/-- The `while not stopped` loop of `domult(x, y)` as a relation: each
iteration adds the barrel to the advance list, increments `timeunit` and
drains the list with the remaining random stream, then clears the pinion
and wheel flags; the loop exits when `stopped` is set.  Loading the
operands (`C1 = x`, `B1 = y`) and the resets before the loop build the
initial state, over which the determinism theorem quantifies: equal inputs
give equal initial states. -/
inductive RunR (kinds : List Kind) (adv : Nat → Bool → Mach → Mach) (barrel : Nat) :
    List Nat → Mach → List Nat → Mach → Prop where
  | stop (cs : List Nat) (m : Mach) : m.stopped = true → RunR kinds adv barrel cs m cs m
  | step (cs cs' cs'' : List Nat) (m m' m'' : Mach) :
      m.stopped = false →
      DrainR adv cs { addBarrel barrel m with timeunit := m.timeunit + 1 } cs' m' →
      RunR kinds adv barrel cs' (tickEnd kinds m') cs'' m'' →
      RunR kinds adv barrel cs m cs'' m''

end AE

namespace AE

/-! ### Lemmas about jump generation -/

theorem jmpgen_big_err {n : Int} (here : Nat) (h7 : 7 < n.natAbs) :
    ∃ e, jmpgen n here = Except.error e := by
  simp only [jmpgen]
  split_ifs with h1 h2 <;> first | exact ⟨_, rfl⟩ | omega

theorem jmpgen_ok_natAbs {n : Int} {here : Nat} {l : List Nat}
    (h : jmpgen n here = Except.ok l) : n.natAbs ≤ 7 := by
  by_contra hc
  obtain ⟨e, he⟩ := jmpgen_big_err here (n := n) (by omega)
  rw [he] at h
  exact Except.noConfusion h

theorem jmpgen_ok_sub {n : Int} {here : Nat} {l : List Nat}
    (h : jmpgen n here = Except.ok l) :
    l.Nodup ∧ ∀ x ∈ l, x % 2 = 0 ∧ x < studnum_moves := by
  have hb := jmpgen_ok_natAbs h
  have h1 : -7 ≤ n := by omega
  have h2 : n ≤ 7 := by omega
  interval_cases n <;> (injection h with h; subst h; decide)

/-! ### Characterizing the completed vertical -/

theorem mem_offsList {nstuds : Nat} {vert : List Nat} {a : Nat} :
    a ∈ offsList nstuds vert ↔
      ∃ k, k < nstuds / 2 ∧ a = 2 * k + 1 ∧ ¬ 2 * k ∈ vert ∧ ¬ (2 * k + 1) ∈ vert := by
  simp only [offsList, List.mem_map, List.mem_filter, List.mem_range, STUDOFF,
    Bool.and_eq_true, decide_eq_true_eq]
  constructor
  · rintro ⟨s, ⟨⟨k, hk, rfl⟩, hs1, hs2⟩, rfl⟩
    exact ⟨k, hk, rfl, hs1, hs2⟩
  · rintro ⟨k, hk, rfl, h1, h2⟩
    exact ⟨2 * k, ⟨⟨k, hk, rfl⟩, h1, h2⟩, rfl⟩

theorem pairRep_cases (vert : List Nat) (k : Nat) :
    pairRep vert k = 2 * k ∨ pairRep vert k = 2 * k + 1 := by
  unfold pairRep; split_ifs <;> simp

theorem sorted_lt_map_pairRep (vert : List Nat) (P : Nat) :
    List.Sorted (· < ·) ((List.range P).map (pairRep vert)) := by
  refine List.Pairwise.map (pairRep vert) (fun a b hab => ?_) (List.pairwise_lt_range P)
  rcases pairRep_cases vert a with h | h <;> rcases pairRep_cases vert b with h' | h' <;> omega

theorem sorted_lt_ext : ∀ (l₁ l₂ : List Nat), List.Sorted (· < ·) l₁ →
    List.Sorted (· < ·) l₂ → (∀ a, a ∈ l₁ ↔ a ∈ l₂) → l₁ = l₂
  | [], [], _, _, _ => rfl
  | [], b :: l₂, _, _, hm => absurd ((hm b).2 (List.mem_cons_self b l₂)) (List.not_mem_nil b)
  | a :: l₁, [], _, _, hm => absurd ((hm a).1 (List.mem_cons_self a l₁)) (List.not_mem_nil a)
  | a :: l₁, b :: l₂, h₁, h₂, hm => by
      rw [List.sorted_cons] at h₁ h₂
      have hab : a = b := by
        rcases List.mem_cons.mp ((hm a).1 (List.mem_cons_self a l₁)) with h | h
        · exact h
        · rcases List.mem_cons.mp ((hm b).2 (List.mem_cons_self b l₂)) with h' | h'
          · exact h'.symm
          · have hba := h₂.1 a h
            have hab := h₁.1 b h'
            omega
      subst hab
      have htail : l₁ = l₂ := by
        refine sorted_lt_ext l₁ l₂ h₁.2 h₂.2 (fun c => ⟨fun hc => ?_, fun hc => ?_⟩)
        · have hne : c ≠ a := fun he => by have := h₁.1 c hc; omega
          rcases List.mem_cons.mp ((hm c).1 (List.mem_cons_of_mem a hc)) with h | h
          · exact absurd h hne
          · exact h
        · have hne : c ≠ a := fun he => by have := h₂.1 c hc; omega
          rcases List.mem_cons.mp ((hm c).2 (List.mem_cons_of_mem a hc)) with h | h
          · exact absurd h hne
          · exact h
      rw [htail]

theorem sorted_lt_of_le_nodup {l : List Nat} (hs : List.Sorted (· ≤ ·) l) (hn : l.Nodup) :
    List.Sorted (· < ·) l :=
  (hs.and hn).imp (fun h => lt_of_le_of_ne h.1 h.2)

theorem nodup_offsList (nstuds : Nat) (vert : List Nat) : (offsList nstuds vert).Nodup := by
  have h1 : List.Pairwise (· < ·) ((List.range (nstuds / 2)).map (fun k => 2 * k)) :=
    List.Pairwise.map _ (fun a b hab => by omega) (List.pairwise_lt_range _)
  have h2 := h1.sublist (List.filter_sublist
    (l := (List.range (nstuds / 2)).map (fun k => 2 * k))
    (p := fun studnum => decide (¬ studnum ∈ vert) && decide (¬ (studnum + 1) ∈ vert)))
  have h3 : List.Pairwise (· < ·) (offsList nstuds vert) :=
    List.Pairwise.map _ (fun a b hab => by omega) h2
  exact h3.imp (fun h => Nat.ne_of_lt h)

theorem nodup_addOffs {nstuds : Nat} {vert : List Nat} (hnd : vert.Nodup)
    (hev : ∀ x ∈ vert, x % 2 = 0) : (addOffs nstuds vert).Nodup := by
  rw [addOffs, List.nodup_append]
  refine ⟨hnd, nodup_offsList nstuds vert, fun a ha ha' => ?_⟩
  obtain ⟨k, _, rfl, _, _⟩ := mem_offsList.mp ha'
  have := hev _ ha
  omega

theorem sorted_addOffs_eq (nstuds : Nat) (he : 2 ∣ nstuds) (pre : List Nat)
    (hnd : pre.Nodup) (hev : ∀ x ∈ pre, x % 2 = 0) (hlt : ∀ x ∈ pre, x < nstuds) :
    pySorted (addOffs nstuds pre) = (List.range (nstuds / 2)).map (pairRep pre) := by
  have hperm : List.Perm (pySorted (addOffs nstuds pre)) (addOffs nstuds pre) :=
    List.perm_insertionSort _ _
  have hsle : List.Sorted (· ≤ ·) (pySorted (addOffs nstuds pre)) :=
    List.sorted_insertionSort _ _
  have hndL : (pySorted (addOffs nstuds pre)).Nodup :=
    hperm.nodup_iff.mpr (nodup_addOffs hnd hev)
  refine sorted_lt_ext _ _ (sorted_lt_of_le_nodup hsle hndL) (sorted_lt_map_pairRep pre _)
    (fun a => ?_)
  rw [hperm.mem_iff, addOffs, List.mem_append]
  constructor
  · rintro (ha | ha)
    · have hev' := hev a ha
      have hlt' := hlt a ha
      have h2 : 2 * (a / 2) = a := by omega
      refine List.mem_map.mpr ⟨a / 2, List.mem_range.mpr (by omega), ?_⟩
      rw [pairRep, h2, if_pos ha]
    · obtain ⟨k, hk, rfl, h1, h2⟩ := mem_offsList.mp ha
      exact List.mem_map.mpr ⟨k, List.mem_range.mpr hk, by rw [pairRep, if_neg h1]⟩
  · intro ha
    obtain ⟨k, hk, rfl⟩ := List.mem_map.mp ha
    rw [List.mem_range] at hk
    by_cases h2k : 2 * k ∈ pre
    · left; rwa [pairRep, if_pos h2k]
    · right
      rw [pairRep, if_neg h2k]
      have hodd : ¬ (2 * k + 1) ∈ pre := fun hmem => by have := hev _ hmem; omega
      exact mem_offsList.mpr ⟨k, hk, rfl, h2k, hodd⟩

theorem addDefaultJump_props {nstuds : Nat} (hpos : 0 < nstuds) {vert : List Nat}
    (hnd : vert.Nodup) (hev : ∀ x ∈ vert, x % 2 = 0) (hlt : ∀ x ∈ vert, x < nstuds) :
    (addDefaultJump vert).Nodup ∧ (∀ x ∈ addDefaultJump vert, x % 2 = 0) ∧
      (∀ x ∈ addDefaultJump vert, x < nstuds) := by
  unfold addDefaultJump
  split_ifs with h
  · rw [List.all_eq_true] at h
    simp only [decide_eq_true_eq] at h
    refine ⟨?_, ?_, ?_⟩
    · rw [List.nodup_append]
      refine ⟨hnd, List.nodup_singleton _, fun a ha ha' => ?_⟩
      have h8 := h a ha
      have : a = MOVE1 + STUDON := List.mem_singleton.mp ha'
      simp only [MOVE1, STUDON, studnum_moves] at h8 this
      omega
    · intro x hx
      rcases List.mem_append.mp hx with hx | hx
      · exact hev x hx
      · rw [List.mem_singleton.mp hx]; rfl
    · intro x hx
      rcases List.mem_append.mp hx with hx | hx
      · exact hlt x hx
      · rw [List.mem_singleton.mp hx]; simpa [MOVE1, STUDON] using hpos
  · exact ⟨hnd, hev, hlt⟩

theorem endVertical_eq {nstuds : Nat} (hpos : 0 < nstuds) (he : 2 ∣ nstuds) {pre : List Nat}
    (hnd : pre.Nodup) (hev : ∀ x ∈ pre, x % 2 = 0) (hlt : ∀ x ∈ pre, x < nstuds) :
    endVertical nstuds pre = (List.range (nstuds / 2)).map (pairRep (addDefaultJump pre)) := by
  obtain ⟨h1, h2, h3⟩ := addDefaultJump_props hpos hnd hev hlt
  exact sorted_addOffs_eq nstuds he (addDefaultJump pre) h1 h2 h3

theorem endVertical_getD {nstuds : Nat} (hpos : 0 < nstuds) (he : 2 ∣ nstuds) {pre : List Nat}
    (hnd : pre.Nodup) (hev : ∀ x ∈ pre, x % 2 = 0) (hlt : ∀ x ∈ pre, x < nstuds)
    {k : Nat} (hk : k < nstuds / 2) (d : Nat) :
    (endVertical nstuds pre).getD k d = pairRep (addDefaultJump pre) k := by
  rw [endVertical_eq hpos he hnd hev hlt, List.getD_eq_getElem?_getD, List.getElem?_map,
    List.getElem?_range hk]
  rfl

theorem mem_endVertical {nstuds : Nat} (hpos : 0 < nstuds) (he : 2 ∣ nstuds) {pre : List Nat}
    (hnd : pre.Nodup) (hev : ∀ x ∈ pre, x % 2 = 0) (hlt : ∀ x ∈ pre, x < nstuds)
    {k : Nat} (hk : k < nstuds / 2) :
    (2 * k ∈ endVertical nstuds pre ↔ 2 * k ∈ addDefaultJump pre) := by
  rw [endVertical_eq hpos he hnd hev hlt]
  constructor
  · intro hm
    obtain ⟨j, _, hj⟩ := List.mem_map.mp hm
    rcases pairRep_cases (addDefaultJump pre) j with h | h <;> rw [h] at hj
    · have : j = k := by omega
      subst this
      have := hj ▸ h
      rw [pairRep] at h
      by_contra hc
      rw [if_neg hc] at h
      omega
    · omega
  · intro hm
    refine List.mem_map.mpr ⟨k, List.mem_range.mpr hk, ?_⟩
    rw [pairRep, if_pos hm]

theorem endVertical_sorted {nstuds : Nat} (hpos : 0 < nstuds) (he : 2 ∣ nstuds) {pre : List Nat}
    (hnd : pre.Nodup) (hev : ∀ x ∈ pre, x % 2 = 0) (hlt : ∀ x ∈ pre, x < nstuds) :
    List.Sorted (· ≤ ·) (endVertical nstuds pre) := by
  rw [endVertical_eq hpos he hnd hev hlt]
  exact (sorted_lt_map_pairRep _ _).imp (fun h => Nat.le_of_lt h)

theorem endVertical_pair_count {nstuds : Nat} (hpos : 0 < nstuds) (he : 2 ∣ nstuds)
    {pre : List Nat} (hnd : pre.Nodup) (hev : ∀ x ∈ pre, x % 2 = 0)
    (hlt : ∀ x ∈ pre, x < nstuds) {k : Nat} (hk : 2 * k + 1 < nstuds) :
    (endVertical nstuds pre).count (2 * k) + (endVertical nstuds pre).count (2 * k + 1) = 1 := by
  rw [endVertical_eq hpos he hnd hev hlt]
  have hkP : k < nstuds / 2 := by omega
  have hndM : ((List.range (nstuds / 2)).map (pairRep (addDefaultJump pre))).Nodup :=
    (sorted_lt_map_pairRep _ _).imp (fun h => Nat.ne_of_lt h)
  have hmem : pairRep (addDefaultJump pre) k ∈
      (List.range (nstuds / 2)).map (pairRep (addDefaultJump pre)) :=
    List.mem_map.mpr ⟨k, List.mem_range.mpr hkP, rfl⟩
  have honly : ∀ a, a ∈ (List.range (nstuds / 2)).map (pairRep (addDefaultJump pre)) →
      (a = 2 * k ∨ a = 2 * k + 1) → a = pairRep (addDefaultJump pre) k := by
    intro a ha hak
    obtain ⟨j, _, hj⟩ := List.mem_map.mp ha
    have hj' := pairRep_cases (addDefaultJump pre) j
    have : j = k := by omega
    subst this
    exact hj.symm
  rcases pairRep_cases (addDefaultJump pre) k with hcase | hcase
  · have c1 : ((List.range (nstuds / 2)).map (pairRep (addDefaultJump pre))).count (2 * k) = 1 :=
      List.count_eq_one_of_mem hndM (hcase ▸ hmem)
    have c2 : ((List.range (nstuds / 2)).map (pairRep (addDefaultJump pre))).count (2 * k + 1)
        = 0 := by
      refine List.count_eq_zero_of_not_mem (fun hmem' => ?_)
      have := honly _ hmem' (Or.inr rfl)
      omega
    omega
  · have c1 : ((List.range (nstuds / 2)).map (pairRep (addDefaultJump pre))).count (2 * k) = 0 := by
      refine List.count_eq_zero_of_not_mem (fun hmem' => ?_)
      have := honly _ hmem' (Or.inl rfl)
      omega
    have c2 : ((List.range (nstuds / 2)).map (pairRep (addDefaultJump pre))).count (2 * k + 1)
        = 1 := List.count_eq_one_of_mem hndM (hcase ▸ hmem)
    omega

theorem addDefaultJump_of_move {pre : List Nat} {x : Nat} (hx : x ∈ pre)
    (hx8 : x < studnum_moves) : addDefaultJump pre = pre := by
  unfold addDefaultJump
  rw [if_neg]
  intro h
  rw [List.all_eq_true] at h
  have := h x hx
  simp only [decide_eq_true_eq] at this
  omega

theorem mem_append_low {user l : List Nat} (huser : ∀ x ∈ user, studnum_moves ≤ x) {a : Nat}
    (ha : a < studnum_moves) : (a ∈ user ++ l ↔ a ∈ l) := by
  rw [List.mem_append]
  constructor
  · rintro (h | h)
    · exact absurd (huser a h) (by omega)
    · exact h
  · exact Or.inr

theorem disasm_endVertical {nstuds : Nat} (h8 : 8 ≤ nstuds) (he : 2 ∣ nstuds) {pre : List Nat}
    (hnd : pre.Nodup) (hev : ∀ x ∈ pre, x % 2 = 0) (hlt : ∀ x ∈ pre, x < nstuds)
    {x : Nat} (hx : x ∈ pre) (hx8 : x < studnum_moves) :
    disasmDistance (endVertical nstuds pre) =
      (if (6 : Nat) ∈ pre then (-1 : Int) else 1) *
        ((if (0 : Nat) ∈ pre then (1 : Int) else 0) + (if (2 : Nat) ∈ pre then 2 else 0) +
          (if (4 : Nat) ∈ pre then 4 else 0)) := by
  have hpos : 0 < nstuds := by omega
  have hadj := addDefaultJump_of_move hx hx8
  have hq : nstuds / 2 ≥ 4 := by omega
  have g0 := endVertical_getD hpos he hnd hev hlt (k := 0) (by omega) (MOVE1 + STUDOFF)
  have g1 := endVertical_getD hpos he hnd hev hlt (k := 1) (by omega) (MOVE2 + STUDOFF)
  have g2 := endVertical_getD hpos he hnd hev hlt (k := 2) (by omega) (MOVE4 + STUDOFF)
  have g3 := endVertical_getD hpos he hnd hev hlt (k := 3) (by omega) (MOVEBACK + STUDOFF)
  rw [hadj] at g0 g1 g2 g3
  unfold disasmDistance
  rw [g0, g1, g2, g3]
  simp only [pairRep, MOVE1, MOVE2, MOVE4, MOVEBACK, STUDOFF]
  norm_num

theorem disasm_user_moves {nstuds : Nat} (h8 : 8 ≤ nstuds) (he : 2 ∣ nstuds)
    {user : List Nat} (hnd : user.Nodup)
    (huser : ∀ x ∈ user, x % 2 = 0 ∧ studnum_moves ≤ x ∧ x < nstuds)
    {l : List Nat} (hl : l.Nodup) (hlm : ∀ x ∈ l, x % 2 = 0 ∧ x < studnum_moves)
    (hne : l ≠ []) :
    disasmDistance (endVertical nstuds (user ++ l)) =
      (if (6 : Nat) ∈ l then (-1 : Int) else 1) *
        ((if (0 : Nat) ∈ l then (1 : Int) else 0) + (if (2 : Nat) ∈ l then 2 else 0) +
          (if (4 : Nat) ∈ l then 4 else 0)) := by
  have h_u8 : ∀ x ∈ user, studnum_moves ≤ x := fun x hx => (huser x hx).2.1
  have hnd' : (user ++ l).Nodup := by
    rw [List.nodup_append]
    exact ⟨hnd, hl, fun a ha ha' => by
      have h1 := h_u8 a ha
      have h2 := (hlm a ha').2
      omega⟩
  have hev' : ∀ y ∈ user ++ l, y % 2 = 0 := by
    intro y hy
    rcases List.mem_append.mp hy with hy | hy
    exacts [(huser y hy).1, (hlm y hy).1]
  have hlt' : ∀ y ∈ user ++ l, y < nstuds := by
    intro y hy
    rcases List.mem_append.mp hy with hy | hy
    · exact (huser y hy).2.2
    · have := (hlm y hy).2
      simp only [studnum_moves] at this
      omega
  have hx0 : l.head hne ∈ l := List.head_mem hne
  have hx' : l.head hne ∈ user ++ l := List.mem_append.mpr (Or.inr hx0)
  rw [disasm_endVertical h8 he hnd' hev' hlt' hx' (hlm _ hx0).2]
  have e6 := mem_append_low (l := l) h_u8 (a := 6) (by simp [studnum_moves])
  have e0 := mem_append_low (l := l) h_u8 (a := 0) (by simp [studnum_moves])
  have e2 := mem_append_low (l := l) h_u8 (a := 2) (by simp [studnum_moves])
  have e4 := mem_append_low (l := l) h_u8 (a := 4) (by simp [studnum_moves])
  simp only [e6, e0, e2, e4]

/-- **C1.**  For every signed jump distance `d` with `1 ≤ |d| ≤ 7`, the stud
list emitted by `jmpgen(d, here)` — MOVEBACK ON when `d < 0`, plus
MOVE4/MOVE2/MOVE1 ON for the base-{4,2,1} decomposition of `|d|` — decodes
back to exactly `d`: placing those studs in any vertical (together with
arbitrary user studs) and completing the vertical as `end_program` does, the
disassembler's decoding (1·[MOVE1 ON] + 2·[MOVE2 ON] + 4·[MOVE4 ON], negated
when MOVEBACK is ON) yields `d`. -/
theorem C1_jump_encoding_roundtrip (nstuds : Nat) (h8 : 8 ≤ nstuds) (he : 2 ∣ nstuds)
    (d : Int) (hd1 : 1 ≤ d.natAbs) (hd7 : d.natAbs ≤ 7) (here : Nat)
    (user : List Nat) (hnd : user.Nodup)
    (huser : ∀ x ∈ user, x % 2 = 0 ∧ studnum_moves ≤ x ∧ x < nstuds) :
    ∃ l, jmpgen d here = Except.ok l ∧
      disasmDistance (endVertical nstuds (user ++ l)) = d := by
  have hlo : -7 ≤ d := by omega
  have hhi : d ≤ 7 := by omega
  interval_cases d <;>
    first
      | exact absurd hd1 (by decide)
      | (refine ⟨_, rfl, ?_⟩
         rw [disasm_user_moves h8 he hnd huser (by decide) (by decide) (by decide)]
         decide)

/-- Witness for `C1_jump_encoding_roundtrip` at a concrete input
(`d = -5`, one user stud 8, ten stud names). -/
theorem C1_jump_encoding_roundtrip_witness :
    ∃ l, jmpgen (-5) 0 = Except.ok l ∧
      disasmDistance (endVertical 10 ([8] ++ l)) = -5 :=
  C1_jump_encoding_roundtrip 10 (by decide) (by decide) (-5) (by decide) (by decide) 0 [8]
    (by decide) (by decide)

/-- **C5 counterexample.**  The claim says the assembler never silently
accepts a jump of distance 0.  But a vertical that jumps to a label defined at
that same vertical — a jump of signed distance 0 — assembles without any
error: `jmpgen` emits no studs for distance 0, `end_program` succeeds, and the
vertical ends up carrying the default +1 jump (its decoded distance is 1). -/
theorem C5_counterexample :
    assemble 10 [[Arg.str "L", Arg.studs [⟨8, false⟩], Arg.str "L"]] =
      Except.ok ⟨[("L", ⟨"L", [], true, some 0⟩)], [[0, 3, 5, 7, 8]], []⟩
    ∧ disasmDistance [0, 3, 5, 7, 8] = 1 := ⟨rfl, by decide⟩

/-- **C5 (amended).**  Jump generation rejects distances of magnitude greater
than 7 with a fatal assembler error, and never errors otherwise; distance 0 is
not rejected: `jmpgen` silently emits no move studs for it, and a vertical
with no move studs receives the default +1 jump (MOVE1 ON) from
`end_program`'s post-processing. -/
theorem C5_jump_range_amended :
    (∀ (n : Int) (here : Nat), 7 < n.natAbs → ∃ e, jmpgen n here = Except.error e)
    ∧ (∀ here : Nat, jmpgen 0 here = Except.ok [])
    ∧ (∀ vert : List Nat, (∀ x ∈ vert, studnum_moves ≤ x) →
        MOVE1 + STUDON ∈ addDefaultJump vert) := by
  refine ⟨fun n here h => jmpgen_big_err here h, fun here => rfl, fun vert h => ?_⟩
  have hc : vert.all (fun stud => decide (studnum_moves ≤ stud)) = true := by
    rw [List.all_eq_true]
    intro x hx
    exact decide_eq_true (h x hx)
  rw [addDefaultJump, if_pos hc]
  exact List.mem_append.mpr (Or.inr (List.mem_singleton.mpr rfl))

/-- Witness for `C5_jump_range_amended` at concrete inputs. -/
theorem C5_jump_range_amended_witness :
    (∃ e, jmpgen 8 0 = Except.error e) ∧ jmpgen 0 3 = Except.ok []
      ∧ MOVE1 + STUDON ∈ addDefaultJump [8] :=
  ⟨C5_jump_range_amended.1 8 0 (by decide), C5_jump_range_amended.2.1 3,
    C5_jump_range_amended.2.2 [8] (by decide)⟩

/-- **C6 (code bug).**  Defining a second label at a vertical index that
already carries a label is accepted silently: both labels end up defined at
vertical index 0 and no "redundant label" error is raised, because the check
`here in [*self.labels.values()]` compares the integer `here` with `labelrec`
objects and is therefore always false. -/
theorem C6_two_labels_same_vertical_accepted :
    (do
      let s ← label "a" emptyProgram
      label "b" s) =
      Except.ok (⟨[("a", ⟨"a", [], true, some 0⟩), ("b", ⟨"b", [], true, some 0⟩)], [], []⟩ :
        AsmState) := rfl

/-- **C10.**  For every direction, `Counter.advance` keeps `value` in
`[0, NDIGITS]` and latches `running_up` exactly on wrap: CCW decrements and on
underflow (value was 0) wraps to NDIGITS setting `running_up`; CW increments
and on overflow (value was NDIGITS) wraps to 0 setting `running_up`; `advance`
never clears `running_up`; `clear()` resets value and `running_up`. -/
theorem C10_counter_wrap (c : Counter) (direction : Bool)
    (hv : 0 ≤ c.value ∧ c.value ≤ (NDIGITS : Int)) :
    (0 ≤ (c.advance direction).value ∧ (c.advance direction).value ≤ (NDIGITS : Int))
    ∧ ((c.advance direction).value =
        if direction = CCW then (if c.value = 0 then (NDIGITS : Int) else c.value - 1)
        else (if c.value = (NDIGITS : Int) then 0 else c.value + 1))
    ∧ ((c.advance direction).running_up = true ↔
        (c.running_up = true ∨ (direction = CCW ∧ c.value = 0)
          ∨ (direction = CW ∧ c.value = (NDIGITS : Int))))
    ∧ (c.clear.value = 0 ∧ c.clear.running_up = false) := by
  obtain ⟨h0, hN⟩ := hv
  cases direction <;>
    · simp only [Counter.advance, Counter.clear, CCW, CW, NDIGITS] at *
      split_ifs <;> simp_all <;> omega

/-- Witness for `C10_counter_wrap`: a counter at 0 stepped CCW wraps to
NDIGITS and raises `running_up`. -/
theorem C10_counter_wrap_witness :
    (0 ≤ ((⟨0, false, false⟩ : Counter).advance CCW).value
      ∧ ((⟨0, false, false⟩ : Counter).advance CCW).value ≤ (NDIGITS : Int))
    ∧ (((⟨0, false, false⟩ : Counter).advance CCW).value =
        if CCW = CCW then (if (0 : Int) = 0 then (NDIGITS : Int) else 0 - 1)
        else (if (0 : Int) = (NDIGITS : Int) then 0 else 0 + 1))
    ∧ ((((⟨0, false, false⟩ : Counter).advance CCW).running_up = true ↔
        (false = true ∨ (CCW = CCW ∧ (0 : Int) = 0)
          ∨ (CCW = CW ∧ (0 : Int) = (NDIGITS : Int)))))
    ∧ ((⟨0, false, false⟩ : Counter).clear.value = 0
        ∧ (⟨0, false, false⟩ : Counter).clear.running_up = false) :=
  C10_counter_wrap ⟨0, false, false⟩ CCW (by decide)

/-- **C7.**  Every committed digit-wheel move changes the wheel by exactly one
position modulo 10: `queue_movewheel` signals a fatal error when the requested
position differs from the current one by other than one mod 10; both
`queue_movewheel` and `meshed_rotate` leave a pending position one step away;
and committing such a pending position in `advance` changes `whposition` by
1 or 9 modulo 10. -/
theorem C7_wheel_single_step :
    (∀ (w : DigitWheel) (position : Nat),
        (position + 1) % 10 ≠ w.whposition → (position + 9) % 10 ≠ w.whposition →
          ∃ e, w.queue_movewheel position = Except.error e)
    ∧ (∀ (w : DigitWheel) (position : Nat) (w' : DigitWheel),
        w.queue_movewheel position = Except.ok w' → pendingOK w' = true)
    ∧ (∀ (w : DigitWheel) (d : Bool) (w' : DigitWheel), w.whposition < 10 →
        w.meshed_rotate d = Except.ok w' → pendingOK w' = true)
    ∧ (∀ (w : DigitWheel) (d : Bool) (w' : DigitWheel),
        pendingOK w = true → w.nextwhposition ≠ none → w.advance d = Except.ok w' →
          (((w'.whposition : Int) - (w.whposition : Int)) % 10 = 1 ∨
            ((w'.whposition : Int) - (w.whposition : Int)) % 10 = 9)) := by
  refine ⟨?_, ?_, ?_, ?_⟩
  · intro w position h1 h9
    exact ⟨_, by rw [DigitWheel.queue_movewheel, if_pos ⟨h1, h9⟩]⟩
  · intro w position w' h
    simp only [DigitWheel.queue_movewheel, DigitWheel.add_to_advance] at h
    split_ifs at h <;> try simp at h
    subst h
    simp only [pendingOK, Bool.or_eq_true, decide_eq_true_eq]
    omega
  · intro w d w' hwh h
    rcases hn : w.nextwhposition with _ | p
    · simp only [DigitWheel.meshed_rotate, hn, DigitWheel.add_to_advance] at h
      split_ifs at h <;> try simp at h
      all_goals
        subst h
      all_goals
        simp only [pendingOK, Bool.or_eq_true, decide_eq_true_eq]
      all_goals
        omega
    · simp [DigitWheel.meshed_rotate, hn] at h
  · intro w d w' hpend hne h
    rcases hn : w.nextwhposition with _ | p
    · exact absurd hn hne
    · simp only [DigitWheel.advance, hn] at h
      injection h with h
      subst h
      simp only [pendingOK, hn, Bool.or_eq_true, decide_eq_true_eq] at hpend
      simp only []
      omega

/-- Witness for `C7_wheel_single_step`: requesting a move from position 5 to
position 8 is a fatal error, and committing the pending move 4 → 3 is a
single CCW step. -/
theorem C7_wheel_single_step_witness :
    (∃ e, DigitWheel.queue_movewheel ⟨5, none, false, true⟩ 8 = Except.error e)
    ∧ ((((3 : Nat) : Int) - ((4 : Nat) : Int)) % 10 = 1 ∨
        (((3 : Nat) : Int) - ((4 : Nat) : Int)) % 10 = 9) :=
  ⟨C7_wheel_single_step.1 ⟨5, none, false, true⟩ 8 (by decide) (by decide),
    C7_wheel_single_step.2.2.2 ⟨4, some 3, false, true⟩ CCW ⟨3, none, false, true⟩
      (by decide) (by decide) rfl⟩

/-! ### Lemmas for the anticipating carriage -/

theorem movewheel_carry_warned {w w' : CarryWheel} {d : Bool}
    (h : w.movewheel d = Except.ok w') : w'.carry_warned = w.carry_warned := by
  simp only [CarryWheel.movewheel] at h
  split_ifs at h <;> try simp at h
  all_goals subst h
  all_goals rfl

theorem carryBranch_spec {car : AxleCarriage} {direction : Bool} {wn : Nat}
    {car1 : AxleCarriage} (hw : wn < NDIGITS)
    (h : carryBranch car direction wn = Except.ok car1) :
    car1.wheels.length = car.wheels.length
    ∧ car1.carry_needed = car.carry_needed
    ∧ (∀ j, warned car1 j = warned car j)
    ∧ (∀ i, NDIGITS ≤ i → car1.wheels.getD i default = car.wheels.getD i default)
    ∧ (car.running_up = true → car1.running_up = true)
    ∧ (wn = NDIGITS - 1 → car1.running_up = true) := by
  unfold carryBranch at h
  by_cases htop : wn = NDIGITS - 1
  · rw [if_pos htop] at h
    injection h with h
    subst h
    exact ⟨rfl, rfl, fun j => rfl, fun i _ => rfl, fun hr => rfl, fun _ => rfl⟩
  · rw [if_neg htop] at h
    rcases hw1 : car.wheels[wn + 1]? with _ | w1 <;> simp only [hw1] at h
    · exact absurd h (by simp)
    rcases hmw : w1.movewheel direction with e | w1' <;> simp only [hmw] at h
    · exact absurd h (by simp)
    injection h with h
    subst h
    have hlen1 : wn + 1 < car.wheels.length := by
      by_contra hc
      rw [List.getElem?_eq_none_iff.mpr (by omega)] at hw1
      exact Option.noConfusion hw1
    refine ⟨by simp [List.length_set], rfl, ?_, ?_, fun hr => hr, fun he => absurd he htop⟩
    · intro j
      by_cases hj1 : j = wn + 1
      · subst hj1
        rw [warned, warned, List.getD_eq_getElem?_getD, List.getD_eq_getElem?_getD,
          List.getElem?_set_self hlen1, hw1]
        simp [movewheel_carry_warned hmw]
      · rw [warned, warned, List.getD_eq_getElem?_getD, List.getD_eq_getElem?_getD,
          List.getElem?_set_ne (fun he => hj1 he.symm)]
    · intro i hi
      rw [List.getD_eq_getElem?_getD, List.getD_eq_getElem?_getD,
        List.getElem?_set_ne (by simp only [NDIGITS] at hw htop hi ⊢; omega)]

theorem carryStep_spec {car : AxleCarriage} {direction : Bool} {wn : Nat}
    {car' : AxleCarriage} (hw : wn < NDIGITS)
    (h : carryStep car direction wn = Except.ok car') :
    car'.wheels.length = car.wheels.length
    ∧ car'.carry_needed.length = car.carry_needed.length
    ∧ warned car' wn = false ∧ needed car' wn = false
    ∧ (∀ j, j ≠ wn → warned car' j = warned car j ∧ needed car' j = needed car j)
    ∧ (∀ i, NDIGITS ≤ i → car'.wheels.getD i default = car.wheels.getD i default)
    ∧ (car.running_up = true → car'.running_up = true)
    ∧ (wn = NDIGITS - 1 → (warned car wn = true ∨ needed car wn = true) →
        car'.running_up = true) := by
  rcases hw0 : car.wheels[wn]? with _ | w <;> simp only [carryStep, hw0] at h
  · exact absurd h (by simp)
  have hwlen : wn < car.wheels.length := by
    by_contra hc
    rw [List.getElem?_eq_none_iff.mpr (by omega)] at hw0
    exact Option.noConfusion hw0
  have hwv : warned car wn = w.carry_warned := by
    rw [warned, List.getD_eq_getElem?_getD, hw0]
    rfl
  by_cases hcond : (w.carry_warned = true ∨ car.carry_needed.getD wn false = true)
  · rw [if_pos hcond] at h
    rcases hbr : carryBranch car direction wn with e | car1 <;> simp only [hbr] at h
    · exact absurd h (by simp)
    obtain ⟨bl, bn, bw, bs, bru, btop⟩ := carryBranch_spec hw hbr
    injection h with h
    subst h
    have hwlen1 : wn < car1.wheels.length := by omega
    refine ⟨by simp [List.length_set, bl], by simp [List.length_set, bn], ?_, ?_, ?_, ?_, ?_, ?_⟩
    · rw [warned, List.getD_eq_getElem?_getD, List.getElem?_set_self hwlen1]
      rfl
    · rw [needed, List.getD_eq_getElem?_getD, List.getElem?_set]
      split_ifs <;> first | rfl | omega
    · intro j hj
      constructor
      · rw [warned, warned, List.getD_eq_getElem?_getD, List.getD_eq_getElem?_getD,
          List.getElem?_set_ne (fun he => hj he.symm)]
        rw [← List.getD_eq_getElem?_getD, ← List.getD_eq_getElem?_getD]
        exact bw j
      · rw [needed, needed, List.getD_eq_getElem?_getD, List.getD_eq_getElem?_getD,
          List.getElem?_set_ne (fun he => hj he.symm), bn]
    · intro i hi
      rw [List.getD_eq_getElem?_getD, List.getElem?_set_ne (by omega),
        ← List.getD_eq_getElem?_getD]
      exact bs i hi
    · intro hr
      exact bru hr
    · intro he _
      exact btop he
  · rw [if_neg hcond] at h
    injection h with h
    subst h
    push_neg at hcond
    refine ⟨rfl, rfl, ?_, ?_, fun j _ => ⟨rfl, rfl⟩, fun i _ => rfl, fun hr => hr, ?_⟩
    · rw [hwv]
      simpa using hcond.1
    · have h2 : car.carry_needed.getD wn false = false := by simpa using hcond.2
      rw [needed]
      exact h2
    · intro _ hflags
      have h2 : car.carry_needed.getD wn false = false := by simpa using hcond.2
      rcases hflags with hf | hf
      · rw [hwv] at hf
        exact absurd hf (by simpa using hcond.1)
      · rw [needed, h2] at hf
        exact Bool.noConfusion hf

theorem carrLoop_spec (direction : Bool) : ∀ (rem wn : Nat) (car car' : AxleCarriage),
    carrLoop direction wn rem car = Except.ok car' → wn + rem ≤ NDIGITS →
    (car'.wheels.length = car.wheels.length
    ∧ car'.carry_needed.length = car.carry_needed.length)
    ∧ (∀ j, wn ≤ j → j < wn + rem → warned car' j = false ∧ needed car' j = false)
    ∧ (∀ j, j < wn ∨ wn + rem ≤ j → warned car' j = warned car j ∧ needed car' j = needed car j)
    ∧ (∀ i, NDIGITS ≤ i → car'.wheels.getD i default = car.wheels.getD i default)
    ∧ (car.running_up = true → car'.running_up = true)
    ∧ ((wn + rem = NDIGITS ∧ wn ≤ NDIGITS - 1 ∧
        (warned car (NDIGITS - 1) = true ∨ needed car (NDIGITS - 1) = true)) →
        car'.running_up = true)
  | 0, wn, car, car', h, hb => by
      simp only [carrLoop] at h
      injection h with h
      subst h
      refine ⟨⟨rfl, rfl⟩, fun j h1 h2 => by omega, fun j _ => ⟨rfl, rfl⟩, fun i _ => rfl,
        fun hr => hr, fun hc => ?_⟩
      simp only [NDIGITS] at hc hb ⊢
      omega
  | rem + 1, wn, car, car', h, hb => by
      simp only [carrLoop] at h
      rcases hstep : carryStep car direction wn with e | car1 <;> simp only [hstep] at h
      · exact absurd h (by simp)
      have hs := carryStep_spec (by omega) hstep
      have ih := carrLoop_spec direction rem (wn + 1) car1 car' h (by omega)
      obtain ⟨hsl1, hsl2, hsw, hsn, hsjo, hssign, hsru, hstop⟩ := hs
      obtain ⟨⟨ihl1, ihl2⟩, ihwin, ihout, ihsign, ihru, ihtop⟩ := ih
      refine ⟨⟨by omega, by omega⟩, ?_, ?_, ?_, ?_, ?_⟩
      · intro j h1 h2
        by_cases hj : j = wn
        · subst hj
          have := ihout j (Or.inl (by omega))
          rw [this.1, this.2]
          exact ⟨hsw, hsn⟩
        · exact ihwin j (by omega) (by omega)
      · intro j hj
        have hj' : j < wn + 1 ∨ wn + 1 + rem ≤ j := by omega
        have h1 := ihout j hj'
        have h2 := hsjo j (by omega)
        rw [h1.1, h1.2, h2.1, h2.2]
        exact ⟨rfl, rfl⟩
      · intro i hi
        rw [ihsign i hi, hssign i hi]
      · intro hr
        exact ihru (hsru hr)
      · rintro ⟨hsum, hle, hflags⟩
        by_cases hcase : wn = NDIGITS - 1
        · have hrem : rem = 0 := by simp only [NDIGITS] at hsum hcase ⊢; omega
          subst hrem
          simp only [carrLoop] at h
          injection h with h
          subst h
          exact hstop hcase (hcase ▸ hflags)
        · have hpres := hsjo (NDIGITS - 1) (fun he => hcase he.symm)
          refine ihtop ⟨by omega, by simp only [NDIGITS] at hsum hcase ⊢; omega, ?_⟩
          rw [hpres.1, hpres.2]
          exact hflags

/-- **C8.**  After `AxleCarriage.do_carriage(direction)` returns, no carriage
wheel (indices `0 .. NDIGITS-1`) has `carry_warned` set and every entry of
`carry_needed` is false; a carry arising at the top wheel (index `NDIGITS-1`)
is not an error: it sets `running_up`, and no move is queued past the top
wheel (the sign wheel at index NDIGITS is untouched). -/
theorem C8_do_carriage_clears (car : AxleCarriage) (direction : Bool) (car' : AxleCarriage)
    (h : car.do_carriage direction = Except.ok car') :
    (∀ wn, wn < NDIGITS → warned car' wn = false ∧ needed car' wn = false)
    ∧ (car.carry_needed.length = NDIGITS → ∀ b ∈ car'.carry_needed, b = false)
    ∧ ((warned car (NDIGITS - 1) = true ∨ needed car (NDIGITS - 1) = true) →
        car'.running_up = true)
    ∧ car'.wheels.getD NDIGITS default = car.wheels.getD NDIGITS default := by
  obtain ⟨⟨hl1, hl2⟩, hwin, _, hsign, _, htop⟩ :=
    carrLoop_spec direction NDIGITS 0 car car' h (by omega)
  refine ⟨fun wn hwn => hwin wn (by omega) (by omega), ?_, fun hf => htop ⟨by omega, by decide, hf⟩,
    hsign NDIGITS (le_refl _)⟩
  intro hlen b hb
  obtain ⟨j, hj, rfl⟩ := List.mem_iff_getElem.mp hb
  have hjlt : j < NDIGITS := by omega
  have := (hwin j (by omega) (by omega)).2
  rwa [needed, List.getD_eq_getElem _ _ (by omega)] at this

/-- Witness for `C8_do_carriage_clears` at a concrete carriage state: all
flags clear, so `do_carriage` is the identity and the postcondition holds. -/
theorem C8_do_carriage_clears_witness :
    (∀ wn, wn < NDIGITS →
      warned ⟨List.replicate 26 default, List.replicate 25 false, false, false⟩ wn = false
      ∧ needed ⟨List.replicate 26 default, List.replicate 25 false, false, false⟩ wn = false)
    ∧ ((⟨List.replicate 26 default, List.replicate 25 false, false, false⟩ :
          AxleCarriage).carry_needed.length = NDIGITS →
        ∀ b ∈ (⟨List.replicate 26 default, List.replicate 25 false, false, false⟩ :
          AxleCarriage).carry_needed, b = false)
    ∧ ((warned ⟨List.replicate 26 default, List.replicate 25 false, false, false⟩
          (NDIGITS - 1) = true ∨
        needed ⟨List.replicate 26 default, List.replicate 25 false, false, false⟩
          (NDIGITS - 1) = true) →
        (⟨List.replicate 26 default, List.replicate 25 false, false, false⟩ :
          AxleCarriage).running_up = true)
    ∧ (⟨List.replicate 26 default, List.replicate 25 false, false, false⟩ :
        AxleCarriage).wheels.getD NDIGITS default =
      (⟨List.replicate 26 default, List.replicate 25 false, false, false⟩ :
        AxleCarriage).wheels.getD NDIGITS default :=
  C8_do_carriage_clears ⟨List.replicate 26 default, List.replicate 25 false, false, false⟩
    CW ⟨List.replicate 26 default, List.replicate 25 false, false, false⟩ rfl

/-! ### Lemmas for the barrel runtime -/

theorem chkmove_id (actionphase : Nat) (distance : Int) (b : BarrelWorld)
    (h : b.phase ≠ actionphase) : chkmove actionphase distance b = b := by
  rw [chkmove, if_neg h]

theorem setbackwards_id (b : BarrelWorld) (h : b.phase ≠ 2) : setbackwards b = b := by
  rw [setbackwards, if_neg h]

theorem set_longcycle_id (b : BarrelWorld) (h : b.phase ≠ 2) : set_longcycle b = b := by
  rw [set_longcycle, if_neg h]

theorem chk_runup_id (ru invert : Bool) (b : BarrelWorld) (h : b.phase ≠ 18) :
    chk_runup ru invert b = b := by
  rw [chk_runup, if_neg h]

theorem dostop_id (b : BarrelWorld) (h : b.phase ≠ 2) : dostop b = b := by
  rw [dostop, if_neg h]

theorem studAction_phase_id (env : RunupEnv) (studnum : Nat) (b : BarrelWorld)
    (h2 : b.phase ≠ 2) (h6 : b.phase ≠ 6) (h10 : b.phase ≠ 10) (h12 : b.phase ≠ 12)
    (h18 : b.phase ≠ 18) : studAction env studnum b = b := by
  unfold studAction
  simp only [chkmove_id 12 1 b h12, chkmove_id 10 2 b h10, chkmove_id 6 4 b h6,
    setbackwards_id b h2, chk_runup_id env.f1 true b h18, chk_runup_id env.f2 true b h18,
    chk_runup_id env.f1 false b h18, chk_runup_id env.f2 false b h18,
    chk_runup_id env.ctr true b h18, chk_runup_id env.ctr false b h18,
    set_longcycle_id b h2, dostop_id b h2, ite_self]

theorem studLoop_phase_id (env : RunupEnv) : ∀ (vert : List Nat) (b b1 : BarrelWorld),
    b.phase ≠ 2 → b.phase ≠ 6 → b.phase ≠ 10 → b.phase ≠ 12 → b.phase ≠ 18 →
    studLoop env vert b = Except.ok b1 → b1 = b
  | [], b, b1, _, _, _, _, _, h => by
      simp only [studLoop] at h
      injection h with h
      exact h.symm
  | s :: rest, b, b1, h2, h6, h10, h12, h18, h => by
      simp only [studLoop] at h
      split_ifs at h
      · rw [studAction_phase_id env s b h2 h6 h10 h12 h18] at h
        exact studLoop_phase_id env rest b b1 h2 h6 h10 h12 h18 h
      · exact studLoop_phase_id env rest b b1 h2 h6 h10 h12 h18 h

/-- **C2.**  When `Barrel.advance` runs the final phase of a cycle (phase
equal to `num_phases`, which `reset` and CYCLE20 keep in {15, 20}; the
phase-18 `doskip` adjustment of `move_distance` has already happened on an
earlier phase of a long cycle), the barrel's next position is
`(position + move_distance) mod len(verticals)` and `reset` increments the
cycle counter and reinitializes the per-cycle fields: phase 1, move_distance
0, doskip and jump_backwards false, num_phases 15, driven false. -/
theorem C2_barrel_cycle_end (env : RunupEnv) (verts : List (List Nat)) (b b' : BarrelWorld)
    (hph : b.phase = b.num_phases) (hnp : b.num_phases = 15 ∨ b.num_phases = 20)
    (h : barrelAdvance env verts b = Except.ok b') :
    b'.barrel_position =
      (((b.barrel_position : Int) + b.move_distance).emod (verts.length : Int)).toNat
    ∧ b'.cycle = b.cycle + 1
    ∧ b'.phase = 1 ∧ b'.move_distance = 0 ∧ b'.doskip = false
    ∧ b'.jump_backwards = false ∧ b'.num_phases = 15 ∧ b'.driven = false := by
  have hp2 : b.phase ≠ 2 := by rcases hnp with h' | h' <;> omega
  have hp6 : b.phase ≠ 6 := by rcases hnp with h' | h' <;> omega
  have hp10 : b.phase ≠ 10 := by rcases hnp with h' | h' <;> omega
  have hp12 : b.phase ≠ 12 := by rcases hnp with h' | h' <;> omega
  have hp18 : b.phase ≠ 18 := by rcases hnp with h' | h' <;> omega
  unfold barrelAdvance at h
  rcases hv : verts[b.barrel_position]? with _ | vert <;> simp only [hv] at h
  · exact absurd h (by simp)
  rw [if_neg (show ¬ b.phase > 20 by omega)] at h
  rcases hsl : studLoop env vert { b with driven := false } with e | b1 <;>
    simp only [hsl] at h
  · exact absurd h (by simp)
  have hid : b1 = { b with driven := false } :=
    studLoop_phase_id env vert _ _ hp2 hp6 hp10 hp12 hp18 hsl
  subst hid
  rw [if_neg (show ¬(({ b with driven := false } : BarrelWorld).phase = 18 ∧
      ({ b with driven := false } : BarrelWorld).doskip = true) from fun hc => hp18 hc.1)] at h
  split_ifs at h with hfin
  · injection h with h
    subst h
    exact ⟨rfl, rfl, rfl, rfl, rfl, rfl, rfl, rfl⟩
  · exact absurd (show b.phase + 1 > b.num_phases by omega) hfin

/-- Witness for `C2_barrel_cycle_end`: a short-cycle barrel at phase 15 with
move distance 1 over a one-vertical program moves to `(0 + 1) mod 1 = 0` and
resets, counting a cycle. -/
theorem C2_barrel_cycle_end_witness :
    (0 : Nat) = (((0 : Int) + 1).emod (1 : Int)).toNat
    ∧ (1 : Nat) = 0 + 1
    ∧ (1 : Nat) = 1 ∧ (0 : Int) = 0 ∧ false = false ∧ false = false ∧ (15 : Nat) = 15
    ∧ false = false :=
  C2_barrel_cycle_end ⟨false, false, false⟩ [[0, 3, 5, 7, 8]]
    ⟨false, 15, 0, 1, false, false, 15, 0, false⟩
    ⟨false, 1, 0, 0, false, false, 15, 1, false⟩ rfl (Or.inl rfl) rfl

/-! ### The assembler invariant -/

theorem Inv_empty (nstuds : Nat) : Inv nstuds emptyProgram := by
  refine ⟨fun i hi => absurd hi (by simp [emptyProgram]), by simp [emptyProgram],
    fun p hp => absurd hp (by simp [emptyProgram]), by simp [emptyProgram],
    fun p hp => absurd hp (by simp [emptyProgram])⟩

theorem getD_append_lt {l l' : List Nat} {i : Nat} (h : i < l.length) (d : Nat) :
    (l ++ l').getD i d = l.getD i d := List.getD_append l l' d i h

theorem getDL_append_lt {l l' : List (List Nat)} {i : Nat} (h : i < l.length)
    (d : List Nat) : (l ++ l').getD i d = l.getD i d := List.getD_append l l' d i h

theorem getDL_append_self {l : List (List Nat)} {x : List Nat} (d : List Nat) :
    (l ++ [x]).getD l.length d = x := by
  rw [List.getD_eq_getElem?_getD, List.getElem?_append_right (le_refl _)]
  simp

theorem getDL_set_self {l : List (List Nat)} {i : Nat} (h : i < l.length) (x d : List Nat) :
    (l.set i x).getD i d = x := by
  rw [List.getD_eq_getElem?_getD, List.getElem?_set_self h]
  rfl

theorem getDL_set_ne {l : List (List Nat)} {i j : Nat} (h : i ≠ j) (x d : List Nat) :
    (l.set i x).getD j d = l.getD j d := by
  rw [List.getD_eq_getElem?_getD, List.getElem?_set_ne h, List.getD_eq_getElem?_getD]

theorem addStuds_sub {nstuds : Nat} : ∀ (studs : List StudArg) (vlen : Nat)
    (snl skips : List Nat), snl.Nodup → (∀ x ∈ snl, GoodUser nstuds x) →
    (∀ st ∈ studs, GoodUser nstuds st.studnum) →
    (addStuds studs vlen (snl, skips)).1.Nodup
    ∧ ∀ x ∈ (addStuds studs vlen (snl, skips)).1, GoodUser nstuds x
  | [], _, snl, skips, h1, h2, _ => ⟨h1, h2⟩
  | st :: rest, vlen, snl, skips, h1, h2, h3 => by
      have hrest : ∀ q ∈ rest, GoodUser nstuds q.studnum :=
        fun q hq => h3 q (List.mem_cons_of_mem _ hq)
      by_cases hm : st.studnum ∈ snl
      · have heq : addStuds (st :: rest) vlen (snl, skips) = addStuds rest vlen (snl, skips) := by
          simp [addStuds, hm]
        rw [heq]
        exact addStuds_sub rest vlen snl skips h1 h2 hrest
      · have heq : addStuds (st :: rest) vlen (snl, skips) =
            addStuds rest vlen (snl ++ [st.studnum],
              if st.can_skip then skips ++ [vlen] else skips) := by
          simp [addStuds, hm]
        rw [heq]
        refine addStuds_sub rest vlen _ _ ?_ ?_ hrest
        · rw [List.nodup_append]
          exact ⟨h1, List.nodup_singleton _,
            fun a ha ha' => hm ((List.mem_singleton.mp ha') ▸ ha)⟩
        · intro x hx
          rcases List.mem_append.mp hx with hx | hx
          · exact h2 x hx
          · rw [List.mem_singleton.mp hx]
            exact h3 st (List.mem_cons_self _ _)

theorem verticalArgs_append : ∀ (xs ys : List Arg) (snl : List Nat) (s : AsmState),
    verticalArgs (xs ++ ys) snl s =
      (match verticalArgs xs snl s with
       | Except.error e => Except.error e
       | Except.ok p => verticalArgs ys p.1 p.2)
  | [], ys, snl, s => by simp [verticalArgs]
  | Arg.str a :: xs, ys, snl, s => by
      simp only [List.cons_append, verticalArgs]
      by_cases hl : snl.length > 0
      · rw [if_pos hl, if_pos hl]
        rcases goto a s with e | p
        · rfl
        · exact verticalArgs_append xs ys (snl ++ p.1) p.2
      · rw [if_neg hl, if_neg hl]
        rcases label a s with e | s'
        · rfl
        · exact verticalArgs_append xs ys snl s'
  | Arg.studs l :: xs, ys, snl, s => by
      simp only [List.cons_append, verticalArgs]
      exact verticalArgs_append xs ys _ _

theorem lookupLabel_mem {name : String} {labels : List (String × labelrec)} {lab : labelrec}
    (h : lookupLabel name labels = some lab) : (name, lab) ∈ labels := by
  unfold lookupLabel at h
  rcases hf : labels.find? (fun p => p.1 == name) with _ | p <;> rw [hf] at h
  · exact absurd h (by simp)
  have hp := List.find?_some hf
  have hm := List.mem_of_find?_eq_some hf
  have h2 : p.2 = lab := by simpa using h
  have h1 : p.1 = name := by simpa using hp
  rw [← h2, ← h1]
  exact hm

theorem lookupLabel_none {name : String} {labels : List (String × labelrec)}
    (h : lookupLabel name labels = none) : ∀ p ∈ labels, p.1 ≠ name := by
  unfold lookupLabel at h
  rcases hf : labels.find? (fun p => p.1 == name) with _ | p <;> rw [hf] at h
  · intro p hp
    have := List.find?_eq_none.mp hf p hp
    simpa using this
  · exact absurd h (by simp)

theorem setLabel_keys (name : String) (lab : labelrec) (labels : List (String × labelrec)) :
    (setLabel name lab labels).map Prod.fst = labels.map Prod.fst := by
  unfold setLabel
  rw [List.map_map]
  refine List.map_congr_left (fun p _ => ?_)
  simp only [Function.comp]
  split <;> rfl

theorem mem_setLabel {name : String} {lab : labelrec} {labels : List (String × labelrec)}
    {q : String × labelrec} (h : q ∈ setLabel name lab labels) :
    (∃ p ∈ labels, p.1 = name ∧ q = (p.1, lab)) ∨ (q ∈ labels ∧ q.1 ≠ name) := by
  unfold setLabel at h
  obtain ⟨p, hp, hq⟩ := List.mem_map.mp h
  by_cases hc : p.1 == name
  · rw [if_pos hc] at hq
    exact Or.inl ⟨p, hp, by simpa using hc, hq.symm⟩
  · rw [if_neg hc] at hq
    exact Or.inr ⟨hq ▸ hp, by subst hq; simpa using hc⟩

theorem shape_of_allGood {nstuds : Nat} {vert : List Nat} (hs : VertShape nstuds vert)
    (hg : ∀ x ∈ vert, GoodUser nstuds x) : vert.Nodup := by
  obtain ⟨u, m, he, hu, _, _, hmg⟩ := hs
  have hm0 : m = [] := by
    cases m with
    | nil => rfl
    | cons a t =>
        have h1 := (hmg a (List.mem_cons_self _ _)).2
        have h2 := (hg a (he ▸ List.mem_append.mpr (Or.inr (List.mem_cons_self _ _)))).2.1
        simp only [studnum_moves] at h1 h2
        omega
  subst hm0
  rw [he]
  simpa using hu

theorem patchVrefs_spec {nstuds : Nat} (here : Nat) : ∀ (vs : List Nat)
    (verts verts' : List (List Nat)),
    vs.Nodup →
    (∀ v ∈ vs, v < verts.length ∧ ∀ x ∈ verts.getD v [], GoodUser nstuds x) →
    (∀ i, i < verts.length → VertShape nstuds (verts.getD i [])) →
    patchVrefs here vs verts = Except.ok verts' →
    verts'.length = verts.length
    ∧ (∀ i, ¬ i ∈ vs → verts'.getD i [] = verts.getD i [])
    ∧ (∀ i, i < verts'.length → VertShape nstuds (verts'.getD i []))
  | [], verts, verts', _, _, hshape, h => by
      simp only [patchVrefs] at h
      injection h with h
      subst h
      exact ⟨rfl, fun i _ => rfl, hshape⟩
  | v :: rest, verts, verts', hnd, hvs, hshape, h => by
      simp only [patchVrefs] at h
      obtain ⟨hvlen, hvgood⟩ := hvs v (List.mem_cons_self _ _)
      rw [dif_pos hvlen] at h
      rcases hj : jmpgen ((here : Int) - (v : Int)) v with e | studs <;> rw [hj] at h
      · exact absurd h (by simp)
      obtain ⟨hjnd, hjsub⟩ := jmpgen_ok_sub hj
      have hgetv : verts[v] = verts.getD v [] := (List.getD_eq_getElem verts [] hvlen).symm
      have hndrest : rest.Nodup := (List.nodup_cons.mp hnd).2
      have hvnotrest : ¬ v ∈ rest := (List.nodup_cons.mp hnd).1
      have hshape1 : ∀ i, i < (verts.set v (verts[v] ++ studs)).length →
          VertShape nstuds ((verts.set v (verts[v] ++ studs)).getD i []) := by
        intro i hi
        rw [List.length_set] at hi
        by_cases hiv : i = v
        · subst hiv
          rw [getDL_set_self hi]
          exact ⟨verts.getD i [], studs, by rw [hgetv],
            shape_of_allGood (hshape i hi) hvgood, hvgood, hjnd, hjsub⟩
        · rw [getDL_set_ne (fun he => hiv he.symm)]
          exact hshape i hi
      have hrest1 : ∀ w ∈ rest, w < (verts.set v (verts[v] ++ studs)).length
          ∧ ∀ x ∈ (verts.set v (verts[v] ++ studs)).getD w [], GoodUser nstuds x := by
        intro w hw
        obtain ⟨h1, h2⟩ := hvs w (List.mem_cons_of_mem _ hw)
        refine ⟨by rw [List.length_set]; exact h1, ?_⟩
        rw [getDL_set_ne (fun he => hvnotrest (by rw [he]; exact hw))]
        exact h2
      obtain ⟨l1, l2, l3⟩ := patchVrefs_spec here rest _ verts' hndrest hrest1 hshape1 h
      refine ⟨by rw [l1, List.length_set], ?_, l3⟩
      intro i hi
      have hir : ¬ i ∈ rest := fun hh => hi (List.mem_cons_of_mem _ hh)
      have hiv : i ≠ v := fun he => hi (he ▸ List.mem_cons_self _ _)
      rw [l2 i hir, getDL_set_ne (fun he => hiv he.symm)]

theorem vrefs_symm : Symmetric (fun p q : String × labelrec =>
    ∀ v ∈ p.2.vrefs, ¬ v ∈ q.2.vrefs) :=
  fun _ _ hpq v hv hv' => hpq v hv' hv

theorem label_inv {nstuds : Nat} {name : String} {s s' : AsmState}
    (hInv : Inv nstuds s) (h : label name s = Except.ok s') :
    Inv nstuds s' ∧ s'.verticals.length = s.verticals.length := by
  obtain ⟨i1, i2, i3, i4, i5⟩ := hInv
  unfold label at h
  rcases hl : lookupLabel name s.labels with _ | lab <;> simp only [hl] at h
  · -- a brand-new label, immediately defined
    rw [if_neg (by simp [pyIntEqLabelrec])] at h
    injection h with h
    subst h
    have hfresh := lookupLabel_none hl
    refine ⟨⟨i1, ?_, ?_, ?_, ?_⟩, rfl⟩
    · rw [List.map_append, List.nodup_append]
      refine ⟨i2, by simp, fun a ha ha' => ?_⟩
      obtain ⟨p, hp, hpa⟩ := List.mem_map.mp ha
      have : a = name := by simpa using ha'
      exact hfresh p hp (by rw [hpa, this])
    · intro p hp
      rcases List.mem_append.mp hp with hp | hp
      · exact i3 p hp
      · have : p.2.vrefs = [] := by
          have := List.mem_singleton.mp hp
          rw [this]
        rw [this]
        exact List.nodup_nil
    · rw [List.pairwise_append]
      refine ⟨i4, by simp, fun a _ b hb v _ hv' => ?_⟩
      have hb' := List.mem_singleton.mp hb
      rw [hb'] at hv'
      simp at hv'
    · intro p hp
      rcases List.mem_append.mp hp with hp | hp
      · obtain ⟨hd, hv⟩ := i5 p hp
        exact ⟨hd, hv⟩
      · have hp' := List.mem_singleton.mp hp
        rw [hp']
        exact ⟨fun _ => rfl, fun v hv => absurd hv (by simp)⟩
  · -- an existing label record
    split_ifs at h with hdef
    rcases hp : patchVrefs s.verticals.length lab.vrefs s.verticals with e | verts <;>
      simp only [hp] at h
    · exact absurd h (by simp)
    injection h with h
    subst h
    have hmem := lookupLabel_mem hl
    have hnd_v : lab.vrefs.Nodup := i3 _ hmem
    have hvs : ∀ v ∈ lab.vrefs, v < s.verticals.length
        ∧ ∀ x ∈ s.verticals.getD v [], GoodUser nstuds x := (i5 _ hmem).2
    obtain ⟨p1, p2, p3⟩ := patchVrefs_spec s.verticals.length lab.vrefs s.verticals verts
      hnd_v hvs i1 hp
    have hdisj := List.Pairwise.forall vrefs_symm i4
    refine ⟨⟨p3, ?_, ?_, ?_, ?_⟩, p1⟩
    · rw [setLabel_keys]
      exact i2
    · intro q hq
      rcases mem_setLabel hq with ⟨p, _, _, hqe⟩ | ⟨hq', _⟩
      · rw [hqe]
        exact List.nodup_nil
      · exact i3 q hq'
    · unfold setLabel
      rw [List.pairwise_map]
      refine i4.imp ?_
      intro a b hab v hv hv'
      by_cases hca : a.1 == name
      · rw [if_pos hca] at hv
        exact absurd hv (by simp)
      · rw [if_neg hca] at hv
        by_cases hcb : b.1 == name
        · rw [if_pos hcb] at hv'
          exact absurd hv' (by simp)
        · rw [if_neg hcb] at hv'
          exact hab v hv hv'
    · intro q hq
      rcases mem_setLabel hq with ⟨p, _, _, hqe⟩ | ⟨hq', hqname⟩
      · rw [hqe]
        exact ⟨fun _ => rfl, fun v hv => absurd hv (by simp)⟩
      · obtain ⟨hd, hv⟩ := i5 q hq'
        refine ⟨hd, fun v hvv => ?_⟩
        obtain ⟨hlt, hgood⟩ := hv v hvv
        have hqlab : q ≠ (name, lab) := fun he => hqname (by rw [he])
        have hvnot : ¬ v ∈ lab.vrefs :=
          hdisj hq' hmem hqlab v hvv
        rw [p1, p2 v hvnot]
        exact ⟨hlt, hgood⟩

theorem jmpgen_shape {n : Int} {here : Nat} {studs : List Nat}
    (h : jmpgen n here = Except.ok studs) :
    studs.Nodup ∧ ∀ x ∈ studs, x % 2 = 0 ∧ x < studnum_moves := by
  simp only [jmpgen] at h
  split_ifs at h <;>
    (simp only [List.nil_append] at h; injection h with h; try subst h; try decide)

theorem Inv_push {nstuds : Nat} {s : AsmState} (hInv : Inv nstuds s) {u : List Nat}
    (hnd : u.Nodup) (hg : ∀ x ∈ u, GoodUser nstuds x) :
    Inv nstuds { s with verticals := s.verticals ++ [u] } := by
  obtain ⟨i1, i2, i3, i4, i5⟩ := hInv
  refine ⟨?_, i2, i3, i4, ?_⟩
  · intro i hi
    simp only [List.length_append, List.length_cons, List.length_nil] at hi
    by_cases hlt : i < s.verticals.length
    · rw [getDL_append_lt hlt]
      exact i1 i hlt
    · have hieq : i = s.verticals.length := by omega
      subst hieq
      rw [getDL_append_self]
      exact ⟨u, [], (List.append_nil u).symm, hnd, hg, List.nodup_nil,
        fun x hx => absurd hx (List.not_mem_nil x)⟩
  · intro p hp
    obtain ⟨hd, hv⟩ := i5 p hp
    refine ⟨hd, fun v hvv => ?_⟩
    obtain ⟨hlt, hgood⟩ := hv v hvv
    refine ⟨by simp only [List.length_append, List.length_cons, List.length_nil]; omega, ?_⟩
    rw [getDL_append_lt hlt]
    exact hgood

theorem key_unique {labels : List (String × labelrec)} (hnd : (labels.map Prod.fst).Nodup)
    {j : String} {lab : labelrec} (hmem : (j, lab) ∈ labels) :
    ∀ a ∈ labels, a.1 = j → a = (j, lab) := by
  have hpw : labels.Pairwise (fun a b => a.1 ≠ b.1) := List.pairwise_map.mp hnd
  have hsym : Symmetric (fun a b : String × labelrec => a.1 ≠ b.1) :=
    fun a b hab he => hab he.symm
  have hforall := List.Pairwise.forall hsym hpw
  intro a ha hae
  by_cases he : a = (j, lab)
  · exact he
  · exact absurd hae (hforall ha hmem he)


theorem len_push_lt {l : List (List Nat)} {x : List Nat} {v : Nat} (h : v ≤ l.length) :
    v < (l ++ [x]).length := by
  simp only [List.length_append, List.length_cons, List.length_nil]
  omega

theorem goto_fwd_core {nstuds : Nat} {j : String} {s : AsmState} {lab : labelrec}
    (hInv : Inv nstuds s) (hl : lookupLabel j s.labels = some lab)
    (hdef : ¬ lab.defined = true) {nr : List Nat} (hnrnd : nr.Nodup)
    (hnrsub : ∀ v ∈ nr, v ∈ lab.vrefs ∨ v = s.verticals.length) :
    ∀ u, u.Nodup → (∀ x ∈ u, GoodUser nstuds x) →
      Inv nstuds { verticals := s.verticals ++ [u ++ []],
                   labels := setLabel j { lab with vrefs := nr } s.labels,
                   skip_verticals := s.skip_verticals } := by
  obtain ⟨i1, i2, i3, i4, i5⟩ := hInv
  have hmem := lookupLabel_mem hl
  have hkeyu := key_unique i2 hmem
  have hlabrefs := (i5 _ hmem).2
  intro u hnd hg
  refine ⟨?_, ?_, ?_, ?_, ?_⟩
  · intro i hi
    simp only [List.length_append, List.length_cons, List.length_nil] at hi
    by_cases hlt : i < s.verticals.length
    · rw [getDL_append_lt hlt]
      exact i1 i hlt
    · have hieq : i = s.verticals.length := by omega
      subst hieq
      rw [getDL_append_self]
      exact ⟨u, [], rfl, hnd, hg, List.nodup_nil, fun x hx => absurd hx (List.not_mem_nil x)⟩
  · rw [setLabel_keys]
    exact i2
  · intro q hq
    rcases mem_setLabel hq with ⟨p, _, _, hqe⟩ | ⟨hq', _⟩
    · rw [hqe]
      exact hnrnd
    · exact i3 q hq'
  · have hpair := List.Pairwise.and i4 (List.pairwise_map.mp i2)
    unfold setLabel
    rw [List.pairwise_map]
    refine List.Pairwise.imp_of_mem ?_ hpair
    intro a b hamem hbmem hab v hv hv'
    obtain ⟨hvd, hne⟩ := hab
    by_cases hca : a.1 == j
    · have ha1 : a.1 = j := by simpa using hca
      have haeq : a = (j, lab) := hkeyu a hamem ha1
      rw [if_pos hca] at hv
      by_cases hcb : b.1 == j
      · have hb1 : b.1 = j := by simpa using hcb
        exact hne (by rw [ha1, hb1])
      · rw [if_neg hcb] at hv'
        rcases hnrsub v hv with hvl | hvl
        · exact hvd v (by rw [haeq]; exact hvl) hv'
        · have := ((i5 b hbmem).2 v hv').1
          omega
    · rw [if_neg hca] at hv
      by_cases hcb : b.1 == j
      · have hb1 : b.1 = j := by simpa using hcb
        have hbeq : b = (j, lab) := hkeyu b hbmem hb1
        rw [if_pos hcb] at hv'
        rcases hnrsub v hv' with hvl | hvl
        · exact hvd v hv (by rw [hbeq]; exact hvl)
        · have := ((i5 a hamem).2 v hv).1
          omega
      · rw [if_neg hcb] at hv'
        exact hvd v hv hv'
  · intro q hq
    rcases mem_setLabel hq with ⟨p, _, _, hqe⟩ | ⟨hq', _⟩
    · subst hqe
      refine ⟨fun hdt => absurd hdt hdef, fun v hvv => ?_⟩
      rcases hnrsub v hvv with hvl | hvl
      · obtain ⟨hlt, hgood⟩ := hlabrefs v hvl
        refine ⟨len_push_lt (Nat.le_of_lt hlt), ?_⟩
        rw [getDL_append_lt hlt]
        exact hgood
      · subst hvl
        refine ⟨len_push_lt (Nat.le_refl _), ?_⟩
        rw [getDL_append_self]
        intro x hx
        rw [List.append_nil] at hx
        exact hg x hx
    · obtain ⟨hd, hv⟩ := i5 q hq'
      refine ⟨hd, fun v hvv => ?_⟩
      obtain ⟨hlt, hgood⟩ := hv v hvv
      refine ⟨len_push_lt (Nat.le_of_lt hlt), ?_⟩
      rw [getDL_append_lt hlt]
      exact hgood

theorem goto_ok {nstuds : Nat} {j : String} {s : AsmState} {res : List Nat × AsmState}
    (hInv : Inv nstuds s) (h : goto j s = Except.ok res) :
    res.2.verticals = s.verticals
    ∧ res.1.Nodup ∧ (∀ x ∈ res.1, x % 2 = 0 ∧ x < studnum_moves)
    ∧ ∀ u, u.Nodup → (∀ x ∈ u, GoodUser nstuds x) →
        Inv nstuds { res.2 with verticals := res.2.verticals ++ [u ++ res.1] } := by
  obtain ⟨i1, i2, i3, i4, i5⟩ := hInv
  unfold goto at h
  rcases hl : lookupLabel j s.labels with _ | lab <;> simp only [hl] at h
  · -- unknown label: a fresh record with one pending forward reference
    injection h with h
    subst h
    have hfresh := lookupLabel_none hl
    refine ⟨rfl, List.nodup_nil, fun x hx => absurd hx (List.not_mem_nil x),
      fun u hnd hg => ⟨?_, ?_, ?_, ?_, ?_⟩⟩
    · intro i hi
      simp only [List.length_append, List.length_cons, List.length_nil] at hi
      by_cases hlt : i < s.verticals.length
      · rw [getDL_append_lt hlt]
        exact i1 i hlt
      · have hieq : i = s.verticals.length := by omega
        subst hieq
        rw [getDL_append_self]
        exact ⟨u, [], rfl, hnd, hg, List.nodup_nil, fun x hx => absurd hx (List.not_mem_nil x)⟩
    · rw [List.map_append, List.nodup_append]
      refine ⟨i2, by simp, fun a ha ha' => ?_⟩
      obtain ⟨p, hp, hpa⟩ := List.mem_map.mp ha
      have ha2 : a = j := by simpa using ha'
      exact hfresh p hp (by rw [hpa, ha2])
    · intro p hp
      rcases List.mem_append.mp hp with hp | hp
      · exact i3 p hp
      · have hp' := List.mem_singleton.mp hp
        rw [hp']
        exact List.nodup_singleton _
    · rw [List.pairwise_append]
      refine ⟨i4, by simp, fun a ha b hb v hv hv' => ?_⟩
      have hb' := List.mem_singleton.mp hb
      rw [hb'] at hv'
      have hveq : v = s.verticals.length := by simpa using hv'
      have hvlt := ((i5 a ha).2 v hv).1
      omega
    · intro p hp
      rcases List.mem_append.mp hp with hp | hp
      · obtain ⟨hd, hv⟩ := i5 p hp
        refine ⟨hd, fun v hvv => ?_⟩
        obtain ⟨hlt, hgood⟩ := hv v hvv
        refine ⟨len_push_lt (Nat.le_of_lt hlt), ?_⟩
        rw [getDL_append_lt hlt]
        exact hgood
      · have hp' := List.mem_singleton.mp hp
        subst hp'
        refine ⟨fun hdt => absurd hdt (by simp), fun v hvv => ?_⟩
        have hveq : v = s.verticals.length := by simpa using hvv
        subst hveq
        refine ⟨len_push_lt (Nat.le_refl _), ?_⟩
        rw [getDL_append_self]
        intro x hx
        rw [List.append_nil] at hx
        exact hg x hx
  · split_ifs at h with hdef hmemv
    · -- label already defined: a backward jump, studs produced by jmpgen
      rcases hj : jmpgen ((lab.vndx.getD 0 : Int) - (s.verticals.length : Int))
          s.verticals.length with e | studs <;> simp only [hj] at h
      · exact absurd h (by simp)
      injection h with h
      subst h
      obtain ⟨hmnd, hmlt⟩ := jmpgen_shape hj
      refine ⟨rfl, hmnd, hmlt, fun u hnd hg => ⟨?_, i2, i3, i4, ?_⟩⟩
      · intro i hi
        simp only [List.length_append, List.length_cons, List.length_nil] at hi
        by_cases hlt : i < s.verticals.length
        · rw [getDL_append_lt hlt]
          exact i1 i hlt
        · have hieq : i = s.verticals.length := by omega
          subst hieq
          rw [getDL_append_self]
          exact ⟨u, studs, rfl, hnd, hg, hmnd, hmlt⟩
      · intro p hp
        obtain ⟨hd, hv⟩ := i5 p hp
        refine ⟨hd, fun v hvv => ?_⟩
        obtain ⟨hlt, hgood⟩ := hv v hvv
        refine ⟨len_push_lt (Nat.le_of_lt hlt), ?_⟩
        rw [getDL_append_lt hlt]
        exact hgood
    · -- known but undefined label; the current vertical is already registered
      injection h with h
      subst h
      refine ⟨rfl, List.nodup_nil, fun x hx => absurd hx (List.not_mem_nil x),
        fun u hnd hg => ?_⟩
      exact goto_fwd_core ⟨i1, i2, i3, i4, i5⟩ hl hdef (i3 _ (lookupLabel_mem hl))
        (fun v hv => Or.inl hv) u hnd hg
    · -- known but undefined label; register the current vertical as pending
      injection h with h
      subst h
      refine ⟨rfl, List.nodup_nil, fun x hx => absurd hx (List.not_mem_nil x),
        fun u hnd hg => ?_⟩
      have hnd' : (lab.vrefs ++ [s.verticals.length]).Nodup := by
        rw [List.nodup_append]
        refine ⟨i3 _ (lookupLabel_mem hl), List.nodup_singleton _, fun a ha ha' => hmemv ?_⟩
        have ha2 : a = s.verticals.length := by simpa using ha'
        rwa [ha2] at ha
      have hsub : ∀ v ∈ lab.vrefs ++ [s.verticals.length],
          v ∈ lab.vrefs ∨ v = s.verticals.length := by
        intro v hv
        rcases List.mem_append.mp hv with hv | hv
        · exact Or.inl hv
        · exact Or.inr (List.mem_singleton.mp hv)
      exact goto_fwd_core ⟨i1, i2, i3, i4, i5⟩ hl hdef hnd' hsub u hnd hg

theorem verticalArgs_studs {nstuds : Nat} : ∀ (mids : List (List StudArg)) (snl : List Nat)
    (s : AsmState), (∀ l ∈ mids, ∀ st ∈ l, GoodUser nstuds st.studnum) →
    snl.Nodup → (∀ x ∈ snl, GoodUser nstuds x) →
    ∃ snl' sk, verticalArgs (mids.map Arg.studs) snl s =
        Except.ok (snl', { s with skip_verticals := sk })
      ∧ snl'.Nodup ∧ (∀ x ∈ snl', GoodUser nstuds x)
  | [], snl, s, _, h1, h2 => ⟨snl, s.skip_verticals, rfl, h1, h2⟩
  | l :: rest, snl, s, hg, h1, h2 => by
      obtain ⟨hnd', hg'⟩ := addStuds_sub l s.verticals.length snl s.skip_verticals h1 h2
        (hg l (List.mem_cons_self _ _))
      obtain ⟨snl', sk, he, hnd'', hg''⟩ := verticalArgs_studs rest
        (addStuds l s.verticals.length (snl, s.skip_verticals)).1
        { s with skip_verticals := (addStuds l s.verticals.length (snl, s.skip_verticals)).2 }
        (fun q hq => hg q (List.mem_cons_of_mem _ hq)) hnd' hg'
      exact ⟨snl', sk, he, hnd'', hg''⟩

theorem midsJmp_inv {nstuds : Nat} {mids : List (List StudArg)} {jmp : Option String}
    {s : AsmState} {p : List Nat × AsmState} (hInv : Inv nstuds s)
    (hg : ∀ l ∈ mids, ∀ st ∈ l, GoodUser nstuds st.studnum)
    (hva : verticalArgs (mids.map Arg.studs ++ jmp.toList.map Arg.str) [] s = Except.ok p) :
    Inv nstuds { p.2 with verticals := p.2.verticals ++ [p.1] }
    ∧ p.2.verticals.length = s.verticals.length := by
  rw [verticalArgs_append] at hva
  obtain ⟨snl2, sk, he, hnd2, hg2⟩ := verticalArgs_studs mids [] s hg List.nodup_nil
    (fun x hx => absurd hx (List.not_mem_nil x))
  rw [he] at hva
  have hInv2 : Inv nstuds { s with skip_verticals := sk } := hInv
  cases jmp with
  | none =>
      simp only [Option.toList, List.map_nil, verticalArgs] at hva
      injection hva with hva
      have hp1 : p.1 = snl2 := by rw [← hva]
      have hp2 : p.2 = { s with skip_verticals := sk } := by rw [← hva]
      rw [hp1, hp2]
      refine ⟨?_, rfl⟩
      have := Inv_push hInv2 hnd2 hg2
      have heq : snl2 ++ ([] : List Nat) = snl2 := List.append_nil snl2
      exact heq ▸ this
  | some a =>
      simp only [Option.toList, List.map_cons, List.map_nil, verticalArgs] at hva
      by_cases hlen : snl2.length > 0
      · rw [if_pos hlen] at hva
        rcases hgo : goto a { s with skip_verticals := sk } with e | q <;>
          simp only [hgo] at hva
        · exact absurd hva (by simp)
        injection hva with hva
        have hp1 : p.1 = snl2 ++ q.1 := by rw [← hva]
        have hp2 : p.2 = q.2 := by rw [← hva]
        obtain ⟨hverts, _, _, hpush⟩ := goto_ok hInv2 hgo
        rw [hp1, hp2]
        refine ⟨hpush snl2 hnd2 hg2, ?_⟩
        rw [hverts]
      · rw [if_neg hlen] at hva
        rcases hlb : label a { s with skip_verticals := sk } with e | s3 <;>
          simp only [hlb] at hva
        · exact absurd hva (by simp)
        injection hva with hva
        have hp1 : p.1 = snl2 := by rw [← hva]
        have hp2 : p.2 = s3 := by rw [← hva]
        obtain ⟨hInv3, hlen3⟩ := label_inv hInv2 hlb
        rw [hp1, hp2]
        refine ⟨?_, hlen3⟩
        exact Inv_push hInv3 hnd2 hg2


theorem vertical_inv {nstuds : Nat} {args : List Arg} {s s' : AsmState}
    (hInv : Inv nstuds s) (hwf : WFInstr nstuds args)
    (h : vertical args s = Except.ok s') :
    Inv nstuds s' ∧ s'.verticals.length = s.verticals.length + 1 := by
  obtain ⟨lab, mids, jmp, hargs, hg⟩ := hwf
  subst hargs
  cases lab with
  | none =>
      have h' : vertical (mids.map Arg.studs ++ jmp.toList.map Arg.str) s = Except.ok s' := h
      unfold vertical at h'
      rcases hva : verticalArgs (mids.map Arg.studs ++ jmp.toList.map Arg.str) [] s
        with e | p <;> simp only [hva] at h'
      · exact absurd h' (by simp)
      injection h' with h'
      obtain ⟨hI, hl⟩ := midsJmp_inv hInv hg hva
      refine ⟨h' ▸ hI, ?_⟩
      rw [← h']
      simp only [List.length_append, List.length_cons, List.length_nil]
      omega
  | some a =>
      have h' : vertical (Arg.str a :: (mids.map Arg.studs ++ jmp.toList.map Arg.str)) s
          = Except.ok s' := h
      unfold vertical at h'
      simp only [verticalArgs] at h'
      rw [if_neg (by simp)] at h'
      rcases hlb : label a s with e | s1 <;> simp only [hlb] at h'
      · exact absurd h' (by simp)
      rcases hva : verticalArgs (mids.map Arg.studs ++ jmp.toList.map Arg.str) [] s1
        with e | p <;> simp only [hva] at h'
      · exact absurd h' (by simp)
      injection h' with h'
      obtain ⟨hInv1, hlen1⟩ := label_inv hInv hlb
      obtain ⟨hI, hl⟩ := midsJmp_inv hInv1 hg hva
      refine ⟨h' ▸ hI, ?_⟩
      rw [← h']
      simp only [List.length_append, List.length_cons, List.length_nil]
      omega

theorem build_inv {nstuds : Nat} : ∀ (prog : List (List Arg)) (s s' : AsmState),
    Inv nstuds s → (∀ i ∈ prog, WFInstr nstuds i) →
    buildProgram prog s = Except.ok s' → Inv nstuds s'
  | [], s, s', hInv, _, h => by
      simp only [buildProgram] at h
      injection h with h
      subst h
      exact hInv
  | i :: rest, s, s', hInv, hwf, h => by
      simp only [buildProgram] at h
      rcases hv : vertical i s with e | s1 <;> simp only [hv] at h
      · exact absurd h (by simp)
      obtain ⟨hI1, _⟩ := vertical_inv hInv (hwf i (List.mem_cons_self _ _)) hv
      exact build_inv rest s1 s' hI1 (fun q hq => hwf q (List.mem_cons_of_mem _ hq)) h

theorem vertShape_basic {nstuds : Nat} {vert : List Nat} (hs : VertShape nstuds vert)
    (h8 : studnum_moves ≤ nstuds) :
    vert.Nodup ∧ (∀ x ∈ vert, x % 2 = 0) ∧ (∀ x ∈ vert, x < nstuds) := by
  obtain ⟨u, m, he, hu, hug, hm, hmg⟩ := hs
  subst he
  refine ⟨?_, ?_, ?_⟩
  · rw [List.nodup_append]
    refine ⟨hu, hm, fun a ha ha' => ?_⟩
    have h1 := (hug a ha).2.1
    have h2 := (hmg a ha').2
    omega
  · intro x hx
    rcases List.mem_append.mp hx with hx | hx
    · exact (hug x hx).1
    · exact (hmg x hx).1
  · intro x hx
    rcases List.mem_append.mp hx with hx | hx
    · exact (hug x hx).2.2
    · have := (hmg x hx).2
      omega

/-- C3: for a program of `vertical`/`label` calls whose explicit stud
arguments name only user studs (the amended hypothesis; the unamended claim,
which also admits explicitly named move studs, is refuted by
`C3_counterexample`), after `end_program` every vertical is sorted
ascending, contains exactly one of each stud pair `{2k, 2k+1}`, and every
vertical whose pre-completion stud list had no move stud received MOVE1 ON,
the default +1 jump. -/
theorem C3_invariants_amended {nstuds : Nat} (hdvd : 2 ∣ nstuds) (h8 : 8 ≤ nstuds)
    {prog : List (List Arg)} (hwf : ∀ i ∈ prog, WFInstr nstuds i) {s₀ s' : AsmState}
    (hb : buildProgram prog emptyProgram = Except.ok s₀)
    (he : end_program nstuds s₀ = Except.ok s') :
    s'.verticals.length = s₀.verticals.length
    ∧ ∀ i, i < s'.verticals.length →
        List.Sorted (fun a b => a ≤ b) (s'.verticals.getD i [])
        ∧ (∀ k, 2 * k + 1 < nstuds →
            (s'.verticals.getD i []).count (2 * k)
              + (s'.verticals.getD i []).count (2 * k + 1) = 1)
        ∧ ((∀ x ∈ s₀.verticals.getD i [], studnum_moves ≤ x) →
            MOVE1 + STUDON ∈ s'.verticals.getD i []) := by
  have hInv := build_inv prog emptyProgram s₀ (Inv_empty nstuds) hwf hb
  have hpos : 0 < nstuds := by omega
  unfold end_program at he
  rcases hf : s₀.labels.find? (fun p => decide (0 < p.2.vrefs.length)) with _ | q <;>
    simp only [hf] at he
  · injection he with he
    subst he
    refine ⟨by simp, fun i hi => ?_⟩
    have hi' : i < s₀.verticals.length := by
      simpa using hi
    have hgetD : (s₀.verticals.map (endVertical nstuds)).getD i [] =
        endVertical nstuds (s₀.verticals.getD i []) := by
      rw [List.getD_eq_getElem _ _ (by simpa using hi'), List.getElem_map,
        List.getD_eq_getElem _ _ hi']
    obtain ⟨hnd, hev, hlt⟩ := vertShape_basic (hInv.1 i hi') h8
    refine ⟨?_, ?_, ?_⟩
    · show List.Sorted (fun a b => a ≤ b)
        ((s₀.verticals.map (endVertical nstuds)).getD i [])
      rw [hgetD]
      exact endVertical_sorted hpos hdvd hnd hev hlt
    · intro k hk
      show ((s₀.verticals.map (endVertical nstuds)).getD i []).count (2 * k)
        + ((s₀.verticals.map (endVertical nstuds)).getD i []).count (2 * k + 1) = 1
      rw [hgetD]
      exact endVertical_pair_count hpos hdvd hnd hev hlt hk
    · intro hmov
      show MOVE1 + STUDON ∈ (s₀.verticals.map (endVertical nstuds)).getD i []
      rw [hgetD]
      have h0 : (0 : Nat) < nstuds / 2 := by omega
      have hmem : (2 * 0 : Nat) ∈ endVertical nstuds (s₀.verticals.getD i []) := by
        refine (mem_endVertical hpos hdvd hnd hev hlt h0).mpr ?_
        unfold addDefaultJump
        rw [if_pos ?hall]
        case hall =>
          rw [List.all_eq_true]
          intro x hx
          simpa using hmov x hx
        refine List.mem_append.mpr (Or.inr ?_)
        simp [MOVE1, STUDON]
      simpa using hmem
  · exact absurd he (by simp)

/-- C3, counterexample to the unamended claim: a program in which every
vertical names each stud at most once and has at most one jump target, yet
after `end_program` the last vertical holds BOTH studs of pair `{4, 5}`
(count 2, not 1): the explicitly named MOVE4 stud collides with the MOVE4
stud that the backward jump of distance 5 generates. -/
theorem C3_counterexample :
    assemble 10
      [[Arg.str "L", Arg.studs [⟨8, false⟩]],
       [Arg.studs [⟨8, false⟩]], [Arg.studs [⟨8, false⟩]],
       [Arg.studs [⟨8, false⟩]], [Arg.studs [⟨8, false⟩]],
       [Arg.studs [⟨4, false⟩], Arg.str "L"]]
      = Except.ok ⟨[("L", ⟨"L", [], true, some 0⟩)],
          [[0, 3, 5, 7, 8], [0, 3, 5, 7, 8], [0, 3, 5, 7, 8], [0, 3, 5, 7, 8],
           [0, 3, 5, 7, 8], [0, 3, 4, 4, 6, 9]], []⟩
    ∧ ([0, 3, 4, 4, 6, 9] : List Nat).count (2 * 2)
        + ([0, 3, 4, 4, 6, 9] : List Nat).count (2 * 2 + 1) = 2 :=
  ⟨rfl, by decide⟩

/-- C3 witness: the amended theorem applied to the one-vertical program
`vertical(S8)` over a ten-stud barrel, whose completed vertical is
`[0, 3, 5, 7, 8]`. -/
theorem C3_invariants_amended_witness :
    List.Sorted (fun a b => a ≤ b)
      ((⟨[], [[0, 3, 5, 7, 8]], []⟩ : AsmState).verticals.getD 0 [])
    ∧ ((⟨[], [[0, 3, 5, 7, 8]], []⟩ : AsmState).verticals.getD 0 []).count (2 * 4)
        + ((⟨[], [[0, 3, 5, 7, 8]], []⟩ : AsmState).verticals.getD 0 []).count (2 * 4 + 1) = 1
    ∧ MOVE1 + STUDON ∈ (⟨[], [[0, 3, 5, 7, 8]], []⟩ : AsmState).verticals.getD 0 [] := by
  have hwf : ∀ i ∈ [[Arg.studs [⟨8, false⟩]]], WFInstr 10 i := by
    intro i hi
    rw [List.mem_singleton] at hi
    subst hi
    refine ⟨none, [[⟨8, false⟩]], none, rfl, ?_⟩
    intro l hl st hst
    rw [List.mem_singleton] at hl
    subst hl
    rw [List.mem_singleton] at hst
    subst hst
    exact ⟨rfl, Nat.le_refl 8, by decide⟩
  have h := @C3_invariants_amended 10 (by decide) (by decide) [[Arg.studs [⟨8, false⟩]]] hwf
    ⟨[], [[8]], []⟩ ⟨[], [[0, 3, 5, 7, 8]], []⟩ rfl rfl
  have h0 := h.2 0 (by decide)
  exact ⟨h0.1, h0.2.1 4 (by decide), h0.2.2 (by decide)⟩

theorem getDB_set_ne {l : List Bool} {i j : Nat} (h : i ≠ j) (x d : Bool) :
    (l.set i x).getD j d = l.getD j d := by
  rw [List.getD_eq_getElem?_getD, List.getElem?_set_ne h, List.getD_eq_getElem?_getD]

theorem getD_set_false (l : List Bool) (i : Nat) : (l.set i false).getD i false = false := by
  by_cases h : i < l.length
  · rw [List.getD_eq_getElem?_getD, List.getElem?_set_self h]
    rfl
  · rw [List.getD_eq_getElem?_getD, List.getElem?_eq_none]
    · rfl
    · rw [List.length_set]
      omega

theorem mem_eraseIdx_of_ne {α : Type} (d : α) : ∀ (l : List α) (i : Nat) (x : α),
    x ∈ l → i < l.length → x ≠ l.getD i d → x ∈ l.eraseIdx i
  | a :: t, 0, x, hx, _, hne => by
      rcases List.mem_cons.mp hx with h | h
      · exact absurd (by rw [h]; rfl) hne
      · simpa using h
  | a :: t, i + 1, x, hx, hi, hne => by
      rcases List.mem_cons.mp hx with h | h
      · rw [List.eraseIdx_cons_succ]
        exact h ▸ List.mem_cons_self _ _
      · rw [List.eraseIdx_cons_succ]
        refine List.mem_cons_of_mem _ (mem_eraseIdx_of_ne d t i x h (by simpa using hi) ?_)
        simpa using hne

theorem add_adv_inv {kinds : List Kind} {c : Nat} {d : Bool} {st st' : Sched}
    (hInv : SchedInv kinds st) (h : add_to_advance_list kinds c d st = Except.ok st') :
    SchedInv kinds st' := by
  unfold add_to_advance_list at h
  split_ifs at h
  injection h with h
  subst h
  intro c' hk hd
  by_cases hc : c' = c
  · subst hc
    exact ⟨d, List.mem_append.mpr (Or.inr (List.mem_singleton.mpr rfl))⟩
  · rw [getDB_set_ne (fun he => hc he.symm)] at hd
    obtain ⟨d', hd'⟩ := hInv c' hk hd
    exact ⟨d', List.mem_append.mpr (Or.inl hd')⟩

theorem foldAdds_error (kinds : List Kind) : ∀ (adds : List (Nat × Bool)) (e : String),
    adds.foldl (addsStep kinds) (Except.error e) = Except.error e
  | [], _ => rfl
  | _ :: rest, e => foldAdds_error kinds rest e

theorem foldAdds_inv {kinds : List Kind} {st' : Sched} :
    ∀ (adds : List (Nat × Bool)) (st : Sched), SchedInv kinds st →
    adds.foldl (addsStep kinds) (Except.ok st) = Except.ok st' → SchedInv kinds st'
  | [], st, hInv, h => by
      injection h with h
      subst h
      exact hInv
  | p :: rest, st, hInv, h => by
      rw [List.foldl_cons] at h
      rcases ha : add_to_advance_list kinds p.1 p.2 st with e | st1
      · rw [show addsStep kinds (Except.ok st) p = Except.error e from by
          simp only [addsStep]; exact ha] at h
        rw [foldAdds_error] at h
        exact absurd h (by simp)
      · rw [show addsStep kinds (Except.ok st) p = Except.ok st1 from by
          simp only [addsStep]; exact ha] at h
        exact foldAdds_inv rest st1 (add_adv_inv hInv ha) h

theorem drain_step_inv {kinds : List Kind} {eff : Nat → Bool → List (Nat × Bool)}
    {st : Sched} {i : Nat} {st2 : Sched}
    (hInv : SchedInv kinds st) (hi : i < st.queue.length)
    (h : doAdvance kinds eff (st.queue.getD i (0, false)).1 (st.queue.getD i (0, false)).2
        { st with queue := st.queue.eraseIdx i } = Except.ok st2) :
    SchedInv kinds st2 := by
  have hother : ∀ c, c ≠ (st.queue.getD i (0, false)).1 →
      kinds.getD c Kind.axle = Kind.barrelcounter →
      st.driven.getD c false = true → ∃ d, (c, d) ∈ st.queue.eraseIdx i := by
    intro c hc hk hd
    obtain ⟨d', hd'⟩ := hInv c hk hd
    refine ⟨d', mem_eraseIdx_of_ne (0, false) st.queue i (c, d') hd' hi ?_⟩
    intro he
    exact hc (by rw [← he])
  unfold doAdvance at h
  by_cases hk0 : kinds.getD (st.queue.getD i (0, false)).1 Kind.axle = Kind.barrelcounter
  · rw [if_pos hk0] at h
    refine foldAdds_inv _ _ ?_ h
    intro c hk hd
    by_cases hc : c = (st.queue.getD i (0, false)).1
    · subst hc
      rw [getD_set_false] at hd
      exact absurd hd (by simp)
    · rw [getDB_set_ne (fun he => hc he.symm)] at hd
      exact hother c hc hk hd
  · rw [if_neg hk0] at h
    refine foldAdds_inv _ _ ?_ h
    intro c hk hd
    have hc : c ≠ (st.queue.getD i (0, false)).1 := fun he => hk0 (he ▸ hk)
    exact hother c hc hk hd

theorem drain_inv {kinds : List Kind} {eff : Nat → Bool → List (Nat × Bool)} :
    ∀ (fuel : Nat) (choices : List Nat) (st st' : Sched),
    SchedInv kinds st → drainAdv kinds eff fuel choices st = Except.ok (some st') →
    st'.queue = [] ∧ SchedInv kinds st'
  | 0, choices, st, st', hInv, h => by
      simp only [drainAdv] at h
      split_ifs at h with hq
      · injection h with h
        injection h with h
        subst h
        exact ⟨hq, hInv⟩
      · injection h with h
        exact absurd h (by simp)
  | fuel + 1, choices, st, st', hInv, h => by
      simp only [drainAdv] at h
      split_ifs at h with hq hd
      · injection h with h
        injection h with h
        subst h
        exact ⟨hq, hInv⟩
      · have hi : choices.headD 0 % st.queue.length < st.queue.length :=
          Nat.mod_lt _ (List.length_pos.mpr hq)
        rcases ha : doAdvance kinds eff
            (st.queue.getD (choices.headD 0 % st.queue.length) (0, false)).1
            (st.queue.getD (choices.headD 0 % st.queue.length) (0, false)).2
            { st with queue := st.queue.eraseIdx (choices.headD 0 % st.queue.length) }
          with e | st2 <;> simp only [ha] at h
        · exact absurd h (by simp)
        · exact drain_inv fuel choices.tail st2 st' (drain_step_inv hInv hi ha) h

theorem clearPW_getD (kinds : List Kind) (driven : List Bool) (c : Nat) :
    (clearPW kinds driven).getD c false =
      if kinds.getD c Kind.axle = Kind.pinionwheel then false
      else driven.getD c false := by
  unfold clearPW
  by_cases h : c < driven.length
  · rw [List.getD_eq_getElem _ _ (by simpa using h), List.getElem_map, List.getElem_range]
  · rw [List.getD_eq_getElem?_getD, List.getElem?_eq_none (by simpa using h)]
    have hd : driven.getD c false = false := by
      rw [List.getD_eq_getElem?_getD, List.getElem?_eq_none (by omega)]
      rfl
    rw [hd]
    split <;> rfl

/-- C4: whenever `timeunit_tick()` returns (for any machine effects, any
random stream and enough fuel), the `awaiting_advance` list is empty and
every component that is not an `Axle` has its `driven` flag false — pinions
and digit wheels are force-cleared by the final loop, and a driven `Barrel`
or `Counter` (scheduler invariant `SchedInv`) was on the list, so its own
`advance` cleared its flag; the invariant itself is re-established. -/
theorem C4_tick_postcondition {kinds : List Kind} {eff : Nat → Bool → List (Nat × Bool)}
    {fuel : Nat} {choices : List Nat} {st : Sched} {timeunit : Nat}
    {st' : Sched} {t' : Nat} (hInv : SchedInv kinds st)
    (h : timeunit_tick kinds eff fuel choices st timeunit = Except.ok (some (st', t'))) :
    st'.queue = []
    ∧ (∀ c, kinds.getD c Kind.axle ≠ Kind.axle → st'.driven.getD c false = false)
    ∧ SchedInv kinds st' := by
  unfold timeunit_tick at h
  rcases hd : drainAdv kinds eff fuel choices st with e | o <;> simp only [hd] at h
  · exact absurd h (by simp)
  rcases o with _ | st0
  · have h2 : (Except.ok none : Except String (Option (Sched × Nat)))
        = Except.ok (some (st', t')) := h
    exact absurd h2 (by simp)
  have h2 : (Except.ok (some ((⟨clearPW kinds st0.driven, st0.queue⟩ : Sched), timeunit + 1))
      : Except String (Option (Sched × Nat))) = Except.ok (some (st', t')) := h
  injection h2 with h2
  injection h2 with h2
  injection h2 with h3 h4
  obtain ⟨hq, hInv0⟩ := drain_inv fuel choices st st0 hInv hd
  subst h3
  refine ⟨hq, ?_, ?_⟩
  · intro c hc
    rw [show (⟨clearPW kinds st0.driven, st0.queue⟩ : Sched).driven = clearPW kinds st0.driven
        from rfl, clearPW_getD]
    split_ifs with hpw
    · rfl
    · rcases hk : kinds.getD c Kind.axle with _ | _ | _
      · exact absurd hk hc
      · exact absurd hk hpw
      · by_cases hdr : st0.driven.getD c false = true
        · obtain ⟨d', hd'⟩ := hInv0 c hk hdr
          rw [hq] at hd'
          exact absurd hd' (List.not_mem_nil _)
        · exact Bool.eq_false_iff.mpr hdr
  · intro c hk hdr
    rw [show (⟨clearPW kinds st0.driven, st0.queue⟩ : Sched).driven = clearPW kinds st0.driven
        from rfl, clearPW_getD] at hdr
    split_ifs at hdr with hpw
    exact hInv0 c hk hdr

/-- C4 witness: one tick of a three-component machine (a driven counter on
the list, an axle, and a driven pinion) drains the list and clears every
non-axle `driven` flag. -/
theorem C4_tick_postcondition_witness :
    SchedInv [Kind.barrelcounter, Kind.axle, Kind.pinionwheel]
      ⟨[true, false, true], [(0, true)]⟩
    ∧ timeunit_tick [Kind.barrelcounter, Kind.axle, Kind.pinionwheel] (fun _ _ => [])
        1 [0] ⟨[true, false, true], [(0, true)]⟩ 0
      = Except.ok (some (⟨[false, false, false], []⟩, 1))
    ∧ (([] : List (Nat × Bool)) = []
       ∧ ∀ c, ([Kind.barrelcounter, Kind.axle, Kind.pinionwheel].getD c Kind.axle ≠ Kind.axle) →
          ([false, false, false] : List Bool).getD c false = false) := by
  have hInv : SchedInv [Kind.barrelcounter, Kind.axle, Kind.pinionwheel]
      ⟨[true, false, true], [(0, true)]⟩ := by
    intro c hk _
    match c with
    | 0 => exact ⟨true, List.mem_singleton.mpr rfl⟩
    | 1 => exact absurd hk (by decide)
    | 2 => exact absurd hk (by decide)
    | c + 3 =>
        rw [List.getD_eq_getElem?_getD, List.getElem?_eq_none (by simp)] at hk
        exact absurd hk (by decide)
  have h := C4_tick_postcondition hInv
    (show timeunit_tick [Kind.barrelcounter, Kind.axle, Kind.pinionwheel] (fun _ _ => [])
        1 [0] ⟨[true, false, true], [(0, true)]⟩ 0
      = Except.ok (some (⟨[false, false, false], []⟩, 1)) from rfl)
  exact ⟨hInv, rfl, h.1, h.2.1⟩

theorem DrainR_deterministic {adv : Nat → Bool → Mach → Mach} :
    ∀ {cs : List Nat} {m : Mach} {cs1 : List Nat} {m1 : Mach},
    DrainR adv cs m cs1 m1 → ∀ {cs2 : List Nat} {m2 : Mach},
    DrainR adv cs m cs2 m2 → cs1 = cs2 ∧ m1 = m2 := by
  intro cs m cs1 m1 h1
  induction h1 with
  | done cs m hq =>
      intro cs2 m2 h2
      cases h2 with
      | done _ _ _ => exact ⟨rfl, rfl⟩
      | step _ _ _ _ hne _ => exact absurd hq hne
  | step cs cs' m m' hne hd ih =>
      intro cs2 m2 h2
      cases h2 with
      | done _ _ hq => exact absurd hq hne
      | step _ _ _ _ _ hd2 => exact ih hd2

theorem RunR_deterministic {kinds : List Kind} {adv : Nat → Bool → Mach → Mach}
    {barrel : Nat} :
    ∀ {cs : List Nat} {m : Mach} {cs1 : List Nat} {m1 : Mach},
    RunR kinds adv barrel cs m cs1 m1 → ∀ {cs2 : List Nat} {m2 : Mach},
    RunR kinds adv barrel cs m cs2 m2 → cs1 = cs2 ∧ m1 = m2 := by
  intro cs m cs1 m1 h1
  induction h1 with
  | stop cs m hs =>
      intro cs2 m2 h2
      cases h2 with
      | stop _ _ _ => exact ⟨rfl, rfl⟩
      | step _ _ _ _ _ _ hs2 _ _ => exact Bool.noConfusion (hs.symm.trans hs2)
  | step cs cs' cs'' m m' m'' hs hd hr ih =>
      intro cs2 m2 h2
      cases h2 with
      | stop _ _ hs2 => exact Bool.noConfusion (hs2.symm.trans hs)
      | step _ c2' _ _ n2' _ _ hd2 hr2 =>
          obtain ⟨hcs, hm⟩ := DrainR_deterministic hd hd2
          subst hcs
          subst hm
          exact ih hr2

/-- C9: two runs of the multiply driver `domult(x, y)` from the same inputs
(equal inputs give equal initial machine states) with an identically seeded
random source (the same `choices` stream driving the randomized pops of
`timeunit_tick`) end with the same `timeunit` count and the same ending
digit-stack values: once the stream is fixed, the run relation has at most
one outcome. -/
theorem C9_domult_deterministic {kinds : List Kind} {adv : Nat → Bool → Mach → Mach}
    {barrel : Nat} {cs : List Nat} {m : Mach} {cs1 : List Nat} {m1 : Mach}
    {cs2 : List Nat} {m2 : Mach}
    (h1 : RunR kinds adv barrel cs m cs1 m1) (h2 : RunR kinds adv barrel cs m cs2 m2) :
    m1.timeunit = m2.timeunit ∧ m1.digitstacks = m2.digitstacks := by
  obtain ⟨-, hm⟩ := RunR_deterministic h1 h2
  exact ⟨by rw [hm], by rw [hm]⟩

/-- C9 witness: the determinism theorem applied to two (identical)
derivations of a stopped one-stack machine. -/
theorem C9_domult_deterministic_witness :
    (⟨[], [], 5, true, [7]⟩ : Mach).timeunit = (⟨[], [], 5, true, [7]⟩ : Mach).timeunit
    ∧ (⟨[], [], 5, true, [7]⟩ : Mach).digitstacks
        = (⟨[], [], 5, true, [7]⟩ : Mach).digitstacks :=
  @C9_domult_deterministic [] (fun _ _ m => m) 0 [] ⟨[], [], 5, true, [7]⟩
    [] ⟨[], [], 5, true, [7]⟩ [] ⟨[], [], 5, true, [7]⟩
    (RunR.stop [] ⟨[], [], 5, true, [7]⟩ rfl) (RunR.stop [] ⟨[], [], 5, true, [7]⟩ rfl)

end AE
